import Mathlib

/-!
Verification of the Covert file-encryption container (covert-encryption/covert).

This file shallowly embeds the parts of the Python sources that the checked
claims are about, and proves (or refutes) the claims over the embedding.

Conventions used throughout:
* Python `bytes` values are embedded as `List Nat`, each element < 256 where
  byte-ness matters (stated as a hypothesis when a theorem needs it).
* Machine integers are `Nat`/`Int` with explicit `% 2^w` where the source wraps.
* External library calls (libsodium AEAD/X25519/Argon2, hashlib sha512) are not
  code of this repository; functions embedding code that calls them take the
  external primitive as an explicit function argument, with the properties the
  library documents supplied as hypotheses where a proof needs them.
* Python generators and the thread-pool pipelining of `blockstream.py` are
  embedded by their sequential data flow: jobs are submitted and collected in
  submission order (the source itself restores order; see spec section 5,
  "Plaintext yield order equals submission order equals file-position order").
-/

namespace Covert

/-! ## Byte-string utilities, from `covert/util.py` and `covert/elliptic/util.py` -/

/-- Python `bytes` embedded as a list of byte values. -/
abbrev Bytes := List Nat

/-- `bytes(n)`: n zero bytes. -/
def zeros (n : Nat) : Bytes := List.replicate n 0

/-- `x.to_bytes(l, "little")`. -/
def toLE : Nat → Nat → Bytes
  | 0, _ => []
  | l + 1, x => x % 256 :: toLE l (x / 256)

/-- `int.from_bytes(b, "little")`. -/
def fromLE : Bytes → Nat
  | [] => 0
  | b :: t => b + 256 * fromLE t

/-- `util.xor(a, b)`: little-endian integer xor of two equal-length strings
(from `covert/util.py`, `xor`). -/
def xorB (a b : Bytes) : Bytes :=
  toLE a.length (Nat.xor (fromLE a) (fromLE b))

theorem toLE_length (l x : Nat) : (toLE l x).length = l := by
  induction l generalizing x with
  | zero => rfl
  | succ n ih => simp [toLE, ih]

theorem xorB_length (a b : Bytes) : (xorB a b).length = a.length :=
  toLE_length _ _

/-! ## Field and group constants, from `covert/elliptic/scalar.py` -/

/-- Field prime `p = 2^255 - 19`. -/
def fp : Nat := 2 ^ 255 - 19

/-- Group order `q = 2^252 + 27742317777372353535851937790883648493`
(both Ed25519 and Curve25519). -/
def gq : Nat := 2 ^ 252 + 27742317777372353535851937790883648493

/-- Field elements are integers normalised modulo `p` on every constructor
(`fe.__init__`: `self.val = x % p`). We carry the value as a `Nat`. -/
def mkFe (x : Int) : Nat := (x % (fp : Int)).toNat

/-- `fe.__add__`. -/
def feAdd (x y : Nat) : Nat := (x + y) % fp

/-- `fe.__sub__` (Python `%` on a negative result normalises into `[0, p)`). -/
def feSub (x y : Nat) : Nat := mkFe ((x : Int) - (y : Int))

/-- `fe.__neg__`. -/
def feNeg (x : Nat) : Nat := mkFe (-(x : Int))

/-- `fe.__mul__`. -/
def feMul (x y : Nat) : Nat := (x * y) % fp

/-- `fe.sq`: `self * self`. -/
def feSq (x : Nat) : Nat := (x * x) % fp

/-- `fe.inv = self ** -1`, i.e. Python `pow(val, -1, p)`: the modular inverse
computed by the extended Euclidean algorithm (0 when no inverse exists;
Python raises there, the case is unreachable in the embedded code paths). -/
def feInv (x : Nat) : Nat := mkFe (Nat.gcdA x fp)

/-- `fe.__truediv__`: `self if o == one else fe(self.val * o.inv.val)`. -/
def feDiv (x y : Nat) : Nat := if y = 1 then x else (x * feInv y) % fp

/-- `fe(-1)` as a plain value. -/
def feMinus1 : Nat := mkFe (-1)

/-! ## Montgomery ladder, from `covert/elliptic/mont.py` -/

/-- Curve constant `A = fe(486662)`. -/
def montA : Nat := 486662

/-- One pass of the loop body of `mont.scalarmult`: the conditional swap
driven by the xor trick, followed by the differential addition step. -/
def ladderStep (u : Nat) (st : Nat × Nat × Nat × Nat × Bool) (bit : Bool) :
    Nat × Nat × Nat × Nat × Bool :=
  let (x2, z2, x3, z3, swap) := st
  let doswap := xor swap bit
  let (x2, z2, x3, z3) := if doswap then (x3, z3, x2, z2) else (x2, z2, x3, z3)
  let a := feAdd x2 z2
  let b := feSub x2 z2
  let aa := feSq a
  let bb := feSq b
  let da := feMul a (feSub x3 z3)
  let db := feMul b (feAdd x3 z3)
  let e := feSub aa bb
  let x3' := feSq (feAdd da db)
  let z3' := feMul (feSq (feSub da db)) u
  let x2' := feMul aa bb
  let z2' := feMul (feAdd bb (feMul 121666 e)) e
  (x2', z2', x3', z3', bit)

/-- `for n in reversed(range(nbits))`: apply `ladderStep` for bit indices
`nbits-1` down to `0` of the scalar `s`. -/
def ladderLoop (u s : Nat) : Nat → Nat × Nat × Nat × Nat × Bool →
    Nat × Nat × Nat × Nat × Bool
  | 0, st => st
  | n + 1, st => ladderLoop u s n (ladderStep u st (s.testBit n))

/-- `mont.scalarmult(s, u)`: multiply the Curve25519 u coordinate by an integer
scalar.  Faithful to the source: reduce `s` mod `8q` first, special-case
`u = -1` (point at infinity) and `u = 0` (order-2 point), then run the
Montgomery ladder and normalise `x2 / z2`. -/
def scalarmult (s : Int) (u : Nat) : Nat :=
  let s' : Nat := (s % ((8 * gq : Nat) : Int)).toNat
  if u = feMinus1 then feMinus1
  else if u = 0 then (if s' % 2 = 1 then 0 else feMinus1)
  else
    let st := ladderLoop u s' s'.size (1, 0, u, 1, false)
    let (x2, z2, x3, z3, swap) := st
    let (x2, z2, _x3, _z3) := if swap then (x3, z3, x2, z2) else (x2, z2, x3, z3)
    if z2 ≠ 0 then feDiv x2 z2 else if x2 = 0 then 0 else feMinus1

theorem feMinus1_eq : feMinus1 = fp - 1 := by decide

/-- Parity of the scalar is preserved by the `s %= 8 * q` reduction. -/
theorem smod_parity (s : Int) :
    ((s % ((8 * gq : Nat) : Int)).toNat % 2 = 1) ↔ s % 2 = 1 := by
  have hdvd : (2 : Int) ∣ ((8 * gq : Nat) : Int) := by
    refine ⟨((4 * gq : Nat) : Int), ?_⟩
    push_cast
    ring
  have hmod : s % ((8 * gq : Nat) : Int) % 2 = s % 2 :=
    Int.emod_emod_of_dvd s hdvd
  have hge : (0 : Int) ≤ s % ((8 * gq : Nat) : Int) := by
    apply Int.emod_nonneg
    decide
  omega

/-- C5: For every integer scalar s, `scalarmult(s, u)` returns −1 whenever
u = −1 (the point at infinity absorbs any multiplication), and for u = 0
(the order-2 point) it returns 0 when s is odd and −1 when s is even.
(`covert/elliptic/mont.py`, `scalarmult`.) -/
theorem scalarmult_low_order_rules (s : Int) :
    scalarmult s feMinus1 = feMinus1 ∧
    scalarmult s 0 = (if s % 2 = 1 then 0 else feMinus1) := by
  constructor
  · simp [scalarmult]
  · have h0 : (0 : Nat) ≠ feMinus1 := by decide
    have hpar := smod_parity s
    by_cases hodd : s % 2 = 1
    · rw [scalarmult, if_neg (by decide : ¬((0:Nat) = feMinus1)), if_pos rfl,
        if_pos hodd, if_pos]
      omega
    · rw [scalarmult, if_neg (by decide : ¬((0:Nat) = feMinus1)), if_pos rfl,
        if_neg hodd, if_neg]
      omega

/-! ## Python errors raised by the embedded code -/

inductive PyErr where
  | valueError
  | assertionError
  | cryptoError
  | nameError
  | keyError
  | attributeError
  | typeError
  deriving DecidableEq, Repr

/-- `ciphertext[a:b]` on byte strings. -/
def sliceB (l : Bytes) (a b : Nat) : Bytes := (l.take b).drop a

/-! ## Key objects, from `covert/pubkey.py`

`Key` is a union-shaped record over `{sk, pk, edsk, edpk, keystr, comment}`.
The spec's data model additionally has a `pkhash` attribute (used by
`cryptoheader.py` lines 27 and 51), which `Key.__init__` in the source never
accepts nor assigns; the record carries the field so that its absence after
construction is expressible (`pkhash = none`). -/

structure KeyRec where
  sk : Option Bytes := none
  pk : Option Bytes := none
  edsk : Option Bytes := none
  edpk : Option Bytes := none
  pkhash : Option Bytes := none
  keystr : List Char := []
  comment : List Char := []
  deriving DecidableEq, Repr

/-- Python truthiness of an optional byte string: `None` and `b""` are falsy. -/
def truthy : Option Bytes → Bool
  | none => false
  | some [] => false
  | some (_ :: _) => true

/-- The libsodium primitives `pubkey.py` calls, as explicit arguments: this is
external library code, not code of the repository.  `signKeypair` is the pair
`(edpk, edsk)` returned by the one `crypto_sign_keypair()` call performed by
`Key.__init__` when no parameters are given (the code performs no retry). -/
structure SodiumOps where
  signKeypair : Bytes × Bytes
  skToCurve : Bytes → Bytes
  pkToCurve : Bytes → Option Bytes
  scalarmultBase : Bytes → Bytes
  edScalarmultBase : Bytes → Bytes

/-- `Key.__init__` from `covert/pubkey.py` (lines 22-49), including
`_generate_public`; `_validate` only performs libsodium sign/box round trips
and assigns no attributes, so it is omitted.  Assertion failures and the
`ValueError` for invalid Ed25519 public keys become `Except.error`. -/
def keyInit (so : SodiumOps) (keystr comment : List Char)
    (sk pk edsk edpk : Option Bytes) : Except PyErr KeyRec :=
  -- Create if no parameters were given
  let gen := !(truthy sk || truthy pk || truthy edsk || truthy edpk)
  let edpk := if gen then some so.signKeypair.1 else edpk
  let edsk := if gen then some so.signKeypair.2 else edsk
  -- Store each parameter and convert ed25519 keys to curve25519
  let selfEdsk : Option Bytes :=
    if truthy edsk then some ((edsk.getD []).take 32) else none
  -- Sodium edsk are actually edsk + edpk so a bogus edpk is appended
  let selfSk : Option Bytes :=
    if truthy edsk then some (so.skToCurve ((edsk.getD []).take 32 ++ zeros 32))
    else none
  let selfEdpk : Option Bytes := if truthy edpk then edpk else none
  let pkconv : Except PyErr (Option Bytes) :=
    if truthy edpk then
      match so.pkToCurve (edpk.getD []) with
      | none => .error .valueError      -- "Invalid Ed25519 public key"
      | some c => .ok (some c)
    else .ok none
  match pkconv with
  | .error e => .error e
  | .ok selfPk =>
    let skb := (sk.getD []).take 32
    if truthy sk ∧ truthy edsk ∧ selfSk ≠ some skb then .error .assertionError
    else
    let selfSk := if truthy sk then some skb else selfSk
    if truthy pk ∧ truthy edpk ∧ selfPk ≠ pk then .error .assertionError
    else
    let selfPk := if truthy pk then pk else selfPk
    -- _generate_public: convert secret keys to public
    let pkConv := so.scalarmultBase (selfSk.getD [])
    if truthy selfSk ∧ truthy selfPk ∧ selfPk ≠ some pkConv then
      .error .assertionError
    else
    let selfPk := if truthy selfSk then some pkConv else selfPk
    -- edsk_hashed = self.sk
    let edpkConv := so.edScalarmultBase (selfSk.getD [])
    if truthy selfEdsk ∧ truthy selfEdpk ∧ selfEdpk ≠ some edpkConv then
      .error .assertionError
    else
    let selfEdpk := if truthy selfEdsk then some edpkConv else selfEdpk
    .ok { sk := selfSk, pk := selfPk, edsk := selfEdsk, edpk := selfEdpk,
          pkhash := none, keystr := keystr, comment := comment }

/-- C2: the claim reads "Every Key constructed with no parameters … is
Elligator2-representable (generation retries until is_hashable(pk)), and
stores a pkhash attribute that round-trips through Elligator2 reveal back to
pk."  The construction in `pubkey.py` calls `crypto_sign_keypair()` exactly
once, never tests hashability and never assigns `pkhash`: whatever the
libsodium outcome, the constructed key has sk, edsk, pk = scalarmult_base(sk)
and edpk, but `pkhash` is absent — so `cryptoheader.py:27` (`eph.pkhash`)
and `cryptoheader.py:51` (`Key(pkhash=…)`) fail on every such key. -/
theorem keyInit_noparams_no_pkhash (so : SodiumOps) (k : KeyRec)
    (h1 : so.signKeypair.1 ≠ []) (h2 : so.signKeypair.2 ≠ [])
    (h3 : ∀ b, so.skToCurve b ≠ [])
    (h : keyInit so [] [] none none none none = .ok k) :
    k.pkhash = none ∧ k.sk.isSome ∧ k.edsk.isSome ∧
    k.pk = some (so.scalarmultBase (k.sk.getD [])) := by
  obtain ⟨b1, t1, he1⟩ := List.exists_cons_of_ne_nil h1
  obtain ⟨b2, t2, he2⟩ := List.exists_cons_of_ne_nil h2
  obtain ⟨c1, ct1, hc⟩ :=
    List.exists_cons_of_ne_nil (h3 (b2 :: List.take 31 t2 ++ zeros 32))
  unfold keyInit at h
  rw [he1, he2] at h
  simp only [truthy, Option.getD_some, Option.getD_none, Bool.or_self,
    Bool.not_false, if_true, ite_true, Bool.false_eq_true, false_and,
    if_false, ite_false, List.take_succ_cons] at h
  rw [hc] at h
  simp at h
  split at h
  · exact absurd h (by simp)
  case _ selfPk heq =>
    split at heq
    · exact absurd heq (by simp)
    · cases heq
      split at h
      · exact absurd h (by simp)
      · split at h
        · simp only [Except.ok.injEq] at h
          subst h
          simp
        · exact absurd h (by simp)

/-- Witness for C2's theorem: a concrete libsodium behaviour on which the
no-parameter construction succeeds; the resulting key has no pkhash. -/
theorem keyInit_noparams_no_pkhash_witness :
    keyInit ⟨([1], [2]), fun _ => [3], fun _ => some [4],
        fun _ => [4], fun _ => [1]⟩ [] [] none none none none =
      .ok { sk := some [3], pk := some [4], edsk := some [2],
            edpk := some [1], pkhash := none, keystr := [], comment := [] } ∧
    (({ sk := some [3], pk := some [4], edsk := some [2], edpk := some [1],
        pkhash := none, keystr := [], comment := [] } : KeyRec).pkhash = none ∧
      (some [3] : Option Bytes).isSome ∧ (some [2] : Option Bytes).isSome ∧
      (some [4] : Option Bytes) = some [4]) :=
  ⟨by rfl,
    keyInit_noparams_no_pkhash
      ⟨([1], [2]), fun _ => [3], fun _ => some [4], fun _ => [4], fun _ => [1]⟩
      { sk := some [3], pk := some [4], edsk := some [2], edpk := some [1],
        pkhash := none, keystr := [], comment := [] }
      (by decide) (by decide) (fun _ => List.cons_ne_nil 3 []) (by rfl)⟩


/-- Whatever the libsodium outcomes (any keypair with non-empty halves and a
conversion that never returns an empty key), the `Key()` that
`encrypt_header` creates carries no `pkhash`: every `.ok` result of the
no-parameter construction assigns only sk, pk, edsk and edpk. -/
theorem keyInit_noparams_pkhash_none (so : SodiumOps) (k : KeyRec)
    (h1 : so.signKeypair.1 ≠ []) (h2 : so.signKeypair.2 ≠ [])
    (h3 : ∀ b, so.skToCurve b ≠ [])
    (h : keyInit so [] [] none none none none = .ok k) :
    k.pkhash = none := by
  obtain ⟨b1, t1, he1⟩ := List.exists_cons_of_ne_nil h1
  obtain ⟨b2, t2, he2⟩ := List.exists_cons_of_ne_nil h2
  obtain ⟨c1, ct1, hc⟩ :=
    List.exists_cons_of_ne_nil (h3 (b2 :: List.take 31 t2 ++ zeros 32))
  unfold keyInit at h
  rw [he1, he2] at h
  simp only [truthy, Option.getD_some, Option.getD_none, Bool.or_self,
    Bool.not_false, if_true, ite_true, Bool.false_eq_true, false_and,
    if_false, ite_false, List.take_succ_cons] at h
  rw [hc] at h
  simp at h
  split at h
  · exact absurd h (by simp)
  case _ selfPk heq =>
    split at heq
    · exact absurd heq (by simp)
    · cases heq
      split at h
      · exact absurd h (by simp)
      · split at h
        · simp only [Except.ok.injEq] at h
          subst h
          rfl
        · exact absurd h (by simp)

/-- A concrete libsodium behaviour used by witnesses. -/
def soW : SodiumOps :=
  ⟨([1], [2]), fun _ => [3], fun _ => some [4], fun _ => [4], fun _ => [1]⟩

/-- The key `pubkey.Key()` builds under `soW`: sk, pk, edsk, edpk — and no
pkhash. -/
def keyW : KeyRec :=
  { sk := some [3], pk := some [4], edsk := some [2], edpk := some [1],
    pkhash := none, keystr := [], comment := [] }

/-! ## Cryptographic header, from `covert/cryptoheader.py`

The external primitives used by the header and block-stream code (libsodium
ChaCha20-Poly1305, SHA-512, Argon2id via `passphrase.authkey`, X25519) are
library calls, not repository code; they are passed in as a bundle of
abstract functions. -/

structure ExtCrypto where
  /-- `chacha.encrypt message aad nonce key`; an empty `aad` stands for the
  `None`/empty cases, which the wrapper treats alike. -/
  enc : Bytes → Bytes → Bytes → Bytes → Bytes
  /-- `chacha.decrypt ciphertext aad nonce key`; `none` models `CryptoError`. -/
  dec : Bytes → Bytes → Bytes → Bytes → Option Bytes
  /-- `hashlib.sha512(x).digest()`. -/
  sha512 : Bytes → Bytes
  /-- `passphrase.authkey pwhash nonce` (Argon2id stage 2). -/
  authkeyF : Bytes → Bytes → Bytes
  /-- `sodium.crypto_scalarmult sk pk`. -/
  x25519 : Bytes → Bytes → Bytes
  /-- `sodium.crypto_scalarmult_base sk`. -/
  x25519base : Bytes → Bytes
  /-- `sign.signature key blkhash = sodium.crypto_sign(...)[:64]`. -/
  signF : KeyRec → Bytes → Bytes

/-- `pubkey.derive_symkey(nonce, local, remote)`:
`sha512(nonce + crypto_scalarmult(local.sk, remote.pk))[:32]`.  The assert on
`local.sk` becomes an error; a missing `remote.pk` would be rejected by
libsodium and is modelled the same way. -/
def deriveSymkey (E : ExtCrypto) (nonce : Bytes) (localK remoteK : KeyRec) :
    Except PyErr Bytes :=
  match localK.sk, remoteK.pk with
  | some sk, some rpk => .ok ((E.sha512 (nonce ++ E.x25519 sk rpk)).take 32)
  | _, _ => .error .assertionError

/-- Python `set(recipients)` dedups by `Key.__eq__`, which compares only the
Curve25519 pk. -/
def dedupKeys (l : List KeyRec) : List KeyRec :=
  l.foldl (fun acc k => if acc.any (fun r => r.pk = k.pk) then acc else acc ++ [k]) []

/-- The encryption-side auth bundle `(wideopen, pwhashes, recipients,
identities)`.  Recipients here are plain public keys; the `Ratchet` special
case of `encrypt_header` is out of the embedded claims' scope. -/
structure AuthE where
  wideopen : Bool
  pwhashes : List Bytes
  recipients : List KeyRec
  identities : List KeyRec

/-- `cryptoheader.encrypt_header(auth)` (lines 12-42), minus the ratchet
branch.  Returns `(header, nonce, key)` where `nonce` is the initial value
of the `util.noncegen` generator the source returns.  `shuffle` stands for
`random.shuffle`; theorems quantify over it, requiring only that it
permutes its input.  `eph` stands for the `pubkey.Key()` the function
creates at line 26 (embedded as `keyInit`); line 27 then reads
`eph.pkhash`, an attribute `Key.__init__` never assigns, so the read raises
AttributeError on every key the constructor can produce
(`keyInit_noparams_pkhash_none`). -/
def encryptHeader (E : ExtCrypto) (shuffle : List Bytes → List Bytes)
    (eph : KeyRec) (auth : AuthE) : Except PyErr (Bytes × Bytes × Bytes) :=
  if ¬(auth.wideopen ∨ auth.pwhashes ≠ [] ∨ auth.recipients ≠ []) then
    .error .assertionError   -- "Must have an authentication method defined"
  else if auth.wideopen ∧ (auth.pwhashes ≠ [] ∨ auth.recipients ≠ []) then
    .error .assertionError   -- "Cannot have auth with wide-open"
  else
    let pwh := auth.pwhashes.dedup
    let recs := dedupKeys auth.recipients
    let simple := recs.isEmpty && decide (pwh.length ≤ 1)
    -- eph = pubkey.Key(); n = eph.pkhash[:12] — the attribute is absent
    match eph.pkhash with
    | none => .error .attributeError
    | some ph =>
      let n := ph.take 12
      if simple then
        match auth.wideopen, pwh with
        | true, _ => .ok (n, n, zeros 32)
        | false, pw :: _ => .ok (n, n, E.authkeyF pw n)
        | false, [] => .error .keyError   -- set().pop() from an empty set
      else
        match recs.mapM (fun r => deriveSymkey E n eph r) with
        | .error e => .error e
        | .ok symkeys =>
          let authv := ((pwh.map fun pw => E.authkeyF pw n) ++ symkeys).dedup
          if authv.length > 20 then
            .error .valueError   -- "Too many recipients specified (max 20)."
          else
            match shuffle authv with
            | [] => .error .valueError   -- `key, *auth = auth` on an empty list
            | key :: rest =>
              .ok (ph ++ (rest.map fun a => xorB key a).flatten, n, key)

/-- A concrete external-crypto bundle used by witnesses. -/
def EW : ExtCrypto :=
  ⟨fun _ _ _ _ => [], fun _ _ _ _ => none, fun _ => [],
   fun _ n => 9 :: n, fun _ _ => [], fun _ => [], fun _ _ => []⟩

/-- C3 (code bug): the claim says that with exactly one passphrase hash, no
public-key recipients and wide-open false, `encrypt_header` emits a header
that is exactly the 12-byte nonce with `authkey(pwhash, nonce)` as file
key.  In this source the simple branch is never reached: the ephemeral
`pubkey.Key()` of line 26 (embedded as `keyInit`) carries no `pkhash`
attribute, so `n = eph.pkhash[:12]` at `cryptoheader.py:27` raises
AttributeError before any header is emitted. -/
theorem encryptHeader_single_passphrase (E : ExtCrypto) (so : SodiumOps)
    (shuffle : List Bytes → List Bytes) (eph : KeyRec) (pwh0 : Bytes)
    (pws : List Bytes) (ids : List KeyRec)
    (h1 : so.signKeypair.1 ≠ []) (h2 : so.signKeypair.2 ≠ [])
    (h3 : ∀ b, so.skToCurve b ≠ [])
    (hk : keyInit so [] [] none none none none = .ok eph)
    (hdedup : pws.dedup = [pwh0]) :
    encryptHeader E shuffle eph ⟨false, pws, [], ids⟩ =
      .error .attributeError := by
  have hne : pws ≠ [] := by
    intro he
    rw [he] at hdedup
    exact absurd hdedup (by simp)
  have hph : eph.pkhash = none :=
    keyInit_noparams_pkhash_none so eph h1 h2 h3 hk
  unfold encryptHeader
  rw [if_neg (by simp [hne]), if_neg (by simp)]
  simp only [hph]

/-- Witness for C3: a concrete single-passphrase call on the key a concrete
libsodium behaviour produces. -/
theorem encryptHeader_single_passphrase_witness :
    soW.signKeypair.1 ≠ [] ∧ soW.signKeypair.2 ≠ [] ∧
    (∀ b, soW.skToCurve b ≠ []) ∧
    keyInit soW [] [] none none none none = .ok keyW ∧
    ([[7, 8]] : List Bytes).dedup = [[7, 8]] ∧
    encryptHeader EW id keyW ⟨false, [[7, 8]], [], []⟩ =
      .error .attributeError :=
  ⟨by decide, by decide, fun _ => List.cons_ne_nil 3 [], rfl, by decide,
    encryptHeader_single_passphrase EW soW id keyW [7, 8] [[7, 8]] []
      (by decide) (by decide) (fun _ => List.cons_ne_nil 3 []) rfl
      (by decide)⟩


/-! ## Decryption header, from `covert/cryptoheader.py` (`Header`) -/

/-- The value of `Header.slot` after construction / authentication. -/
inductive SlotInfo where
  | locked
  | wideOpen
  | passphrase
  | conversation
  | slotPair (i j : Nat)
  deriving DecidableEq, Repr

structure HeaderSt where
  ciphertext : Bytes
  nonce : Bytes
  eph : KeyRec
  slot : SlotInfo
  key : Option Bytes
  block0 : Option Bytes
  block0pos : Option Nat
  block0len : Option Nat

/-- `Header._find_block0(key, begin)`: try AEAD decryption of
`ct[begin:end]` with AAD `ct[:begin]` for every candidate `end` from
`min(1024, len(ct))` down to `begin + 19`; the first success yields
`(block0, block0pos, block0len)`. -/
def findBlock0 (dec : Bytes → Bytes → Bytes → Bytes → Option Bytes)
    (ct nonce key : Bytes) (bg : Nat) : Option (Bytes × Nat × Nat) :=
  let ends := (List.range' (bg + 19) (min 1024 ct.length + 1 - (bg + 19))).reverse
  ends.findSome? fun e =>
    (dec (sliceB ct bg e) (ct.take bg) nonce key).map fun b0 => (b0, bg, e - bg - 19)

/-- The call `pubkey.Key(pkhash=ciphertext[:32])` at `cryptoheader.py:51`:
`Key.__init__` (`pubkey.py:22`) accepts only the keywords `keystr`,
`comment`, `sk`, `pk`, `edsk` and `edpk`, so passing `pkhash` raises
TypeError before the constructor body runs. -/
def keyWithPkhashArg (pkh : Bytes) : Except PyErr KeyRec :=
  .error .typeError

/-- `Header.__init__(ciphertext)` (lines 46-61): reject inputs of fewer than
32 bytes (12 nonce + 1 data + 3 nextlen + 16 tag), keep the first 1024
bytes, take the nonce, then build the ephemeral key with `Key(pkhash=…)` —
which raises TypeError, so the wide-open trial below it is dead code in this
source.  `unhash` is the Elligator2 reveal such a key would use; it stays in
the signature and is never reached. -/
def headerInit (dec : Bytes → Bytes → Bytes → Bytes → Option Bytes)
    (unhash : Bytes → Bytes) (ct : Bytes) : Except PyErr HeaderSt :=
  if ct.length < 32 then
    .error .valueError   -- "This file is too small to contain encrypted data."
  else
    let ct1 := ct.take 1024
    let nonce := ct1.take 12
    match keyWithPkhashArg (ct1.take 32) with
    | .error e => .error e
    | .ok eph =>
      match findBlock0 dec ct1 nonce (zeros 32) 12 with
      | some (b0, pos, len) =>
        .ok { ciphertext := ct1, nonce := nonce, eph := eph,
              slot := .wideOpen, key := some (zeros 32), block0 := some b0,
              block0pos := some pos, block0len := some len }
      | none =>
        .ok { ciphertext := ct1, nonce := nonce, eph := eph, slot := .locked,
              key := none, block0 := none, block0pos := none,
              block0len := none }

/-- C10: for every input shorter than 32 bytes, constructing a decryption
`Header` raises ValueError before any slot probing or trial decryption is
attempted — the result is the same error for every possible AEAD decryption
function.  (`covert/cryptoheader.py` lines 46-48.) -/
theorem headerInit_short_input (dec : Bytes → Bytes → Bytes → Bytes → Option Bytes)
    (unhash : Bytes → Bytes) (ct : Bytes) (h : ct.length < 32) :
    headerInit dec unhash ct = .error .valueError := by
  unfold headerInit
  rw [if_pos h]

/-- Witness for C10: a 31-byte input is rejected. -/
theorem headerInit_short_input_witness :
    (zeros 31).length < 32 ∧
    headerInit (fun _ _ _ _ => none) id (zeros 31) = .error .valueError :=
  ⟨by decide, headerInit_short_input (fun _ _ _ _ => none) id (zeros 31) (by decide)⟩

/-! ## Block stream, from `covert/blockstream.py`

The thread-pool pipelining of `encrypt_file` and `decrypt_blocks` has a
deterministic sequential data flow (spec section 5: plaintext yield order
equals submission order equals file-position order; nonces are assigned at
submit time; a length mis-guess is retried internally at the same position
with the now-known length).  The embedding below is that sequential
projection: block `i` carries the plaintext chunk `i` followed by the 3-byte
little-endian length of chunk `i+1` (`0` for the last block), is encrypted
with AAD = header for block 0 and empty otherwise, under nonce `n + i`. -/

/-- `util.noncegen` after `i` steps: the 96-bit little-endian counter. -/
def nonceAt (n : Bytes) (i : Nat) : Bytes :=
  toLE n.length ((fromLE n + i) % 2 ^ (8 * n.length))

/-- `nextlen.to_bytes(3, "little")`. -/
def le3 (x : Nat) : Bytes := toLE 3 x

/-- `ciphertext[-16:]`: the Poly1305 tag. -/
def last16 (l : Bytes) : Bytes := l.drop (l.length - 16)

/-- The data blocks of `encrypt_file`: each `Block.finalize(nextlen, nonce,
key)` encrypts `chunk ++ le3 nextlen` where `nextlen` is the next chunk's
length (0 at the end). -/
def encryptBlocks (E : ExtCrypto) (header nseed key : Bytes) :
    List Bytes → Nat → List Bytes
  | [], _ => []
  | [c], i =>
    [E.enc (c ++ le3 0) (if i = 0 then header else []) (nonceAt nseed i) key]
  | c :: c2 :: t, i =>
    E.enc (c ++ le3 c2.length) (if i = 0 then header else [])
        (nonceAt nseed i) key ::
      encryptBlocks E header nseed key (c2 :: t) (i + 1)

/-- `blkhash = sha512(blkhash + ciphertext[-16:])`, chained over the blocks. -/
def blkhashChain (sha : Bytes → Bytes) : Bytes → List Bytes → Bytes
  | h, [] => h
  | h, ct :: t => blkhashChain sha (sha (h ++ last16 ct)) t

/-- `blockstream.encrypt_file(auth, blockinput, a)`: the header, the data
blocks (including the empty terminator block when no plaintext was
produced), the final block hash attached as `a.filehash`, and the trailing
signature blocks (one per signing identity, 80 bytes each).  `chunks` is the
sequence of block plaintexts supplied by the `blockinput` callback. -/
def encryptFile (E : ExtCrypto) (shuffle : List Bytes → List Bytes)
    (eph : KeyRec) (auth : AuthE) (chunks : List Bytes) :
    Except PyErr (Bytes × List Bytes × Bytes × List Bytes) :=
  match encryptHeader E shuffle eph auth with
  | .error e => .error e
  | .ok (header, n, key) =>
    let blocks := match chunks with
      | [] => [E.enc (le3 0) header (nonceAt n 0) key]
      | c :: t => encryptBlocks E header n key (c :: t) 0
    let fh := blkhashChain E.sha512 [] blocks
    let sigs := auth.identities.map fun k =>
      E.enc (E.signF k fh) [] ((E.sha512 (fh ++ k.pk.getD [])).take 12)
        (fh.take 32)
    .ok (header, blocks, fh, sigs)

/-- The slot list `Header._find_slots` scans: the implicit all-zero slot,
then the 32-byte slots read from the ciphertext at offsets `32..608` as far
as a minimal first block could still follow. -/
def slotsOf (ct : Bytes) : List Bytes :=
  zeros 32 ::
    (((List.range' 1 18).filter fun i => (i + 1) * 32 + 19 ≤ ct.length).map
      fun i => sliceB ct (i * 32) ((i + 1) * 32))

/-- `Header._find_slots(authkey)` (lines 81-93): for each slot index `i`
(ascending) and each candidate first-block offset in `slotends[i:]`, try
`_find_block0` with `slot XOR authkey`; the first success fixes
`(key, block0, pos, len)` and the reported slot pair `(i, block0pos // 32)`. -/
def findSlots (dec : Bytes → Bytes → Bytes → Bytes → Option Bytes)
    (ct nonce authkey : Bytes) :
    Option (Bytes × Bytes × Nat × Nat × Nat × Nat) :=
  let slots := slotsOf ct
  let slotends := (List.range slots.length).map fun i => (i + 1) * 32
  slots.enum.findSome? fun p =>
    let key := xorB p.2 authkey
    (slotends.drop p.1).findSome? fun hbegin =>
      (findBlock0 dec ct nonce key hbegin).map fun r =>
        (key, r.1, r.2.1, r.2.2, p.1, r.2.1 / 32)

/-- `Header.try_pass(pwhash)` (lines 73-79). -/
def tryPass (E : ExtCrypto) (st : HeaderSt) (pwh : Bytes) :
    Except PyErr HeaderSt :=
  let ak := E.authkeyF pwh st.nonce
  match findBlock0 E.dec st.ciphertext st.nonce ak 12 with
  | some (b0, pos, len) =>
    .ok { st with
          slot := .passphrase
          key := some ak
          block0 := some b0
          block0pos := some pos
          block0len := some len }
  | none =>
    match findSlots E.dec st.ciphertext st.nonce ak with
    | some (k, b0, pos, len, i, j) =>
      .ok { st with
            slot := .slotPair i j
            key := some k
            block0 := some b0
            block0pos := some pos
            block0len := some len }
    | none => .error .cryptoError

/-- `Header.try_key(recvkey)` (lines 63-65). -/
def tryKey (E : ExtCrypto) (st : HeaderSt) (recvkey : KeyRec) :
    Except PyErr HeaderSt :=
  match deriveSymkey E st.nonce recvkey st.eph with
  | .error e => .error e
  | .ok ak =>
    match findSlots E.dec st.ciphertext st.nonce ak with
    | some (k, b0, pos, len, i, j) =>
      .ok { st with
            slot := .slotPair i j
            key := some k
            block0 := some b0
            block0pos := some pos
            block0len := some len }
    | none => .error .cryptoError

/-- A decryption-side auth candidate of `decrypt_file`: a `pubkey.Key` (with
secret key) or a passphrase hash. -/
inductive AuthCand where
  | key (k : KeyRec)
  | pass (pwh : Bytes)

/-- `BlockStream.authenticate` dispatch. -/
def authenticate (E : ExtCrypto) (st : HeaderSt) : AuthCand → Except PyErr HeaderSt
  | .key k => tryKey E st k
  | .pass pwh => tryPass E st pwh

/-- The `for a in auth: with suppress(CryptoError): authenticate(a); break`
loop of `decrypt_file` (lines 20-24): a `CryptoError` moves to the next
candidate, success breaks, other errors propagate. -/
def authLoop (E : ExtCrypto) : List AuthCand → HeaderSt → Except PyErr HeaderSt
  | [], st => .ok st
  | a :: t, st =>
    match authenticate E st a with
    | .ok st' => .ok st'
    | .error .cryptoError => authLoop E t st
    | .error e => .error e

/-- The block-reading loop of `decrypt_blocks` after block 0, sequentially:
while the previous block announced a nonzero next length, decrypt the next
`nextlen + 19` bytes (no AAD) under the next nonce, account the trailing
16-byte tag into the running block hash, yield the plaintext minus its
3-byte trailer, and continue with the announced length.  The fuel is an
upper bound on the number of blocks (the ciphertext length suffices). -/
def decryptBlocksLoop (E : ExtCrypto) (ct key nseed : Bytes) :
    Nat → Nat → Nat → Bytes → Nat → Except PyErr (List Bytes × Bytes × Nat)
  | 0, _, _, _, _ => .error .cryptoError
  | _ + 1, pos, 0, h, _ => .ok ([], h, pos)
  | fuel + 1, pos, nextlen + 1, h, i =>
    let extlen := nextlen + 1 + 19
    match E.dec (sliceB ct pos (pos + extlen)) [] (nonceAt nseed i) key with
    | none => .error .cryptoError
    | some m =>
      let h' := E.sha512 (h ++ sliceB ct (pos + extlen - 16) (pos + extlen))
      match decryptBlocksLoop E ct key nseed fuel (pos + extlen)
          (fromLE (m.drop (m.length - 3))) h' (i + 1) with
      | .error e => .error e
      | .ok (ms, hf, pf) => .ok (m.take (m.length - 3) :: ms, hf, pf)

/-- `BlockStream.decrypt_blocks` (lines 93-139), sequentially: block 0 is
re-decrypted with AAD = the header bytes and the first nonce, then the loop
above; raises ValueError when not authenticated. -/
def decryptBlocks (E : ExtCrypto) (ct : Bytes) (st : HeaderSt) :
    Except PyErr (List Bytes × Bytes × Nat) :=
  match st.key, st.block0pos, st.block0len with
  | some key, some pos, some b0len =>
    let e0 := pos + b0len + 19
    match E.dec (sliceB ct pos e0) (ct.take pos) (nonceAt st.nonce 0) key with
    | none => .error .cryptoError
    | some m0 =>
      let h1 := E.sha512 (([] : Bytes) ++ sliceB ct (e0 - 16) e0)
      match decryptBlocksLoop E ct key st.nonce ct.length e0
          (fromLE (m0.drop (m0.length - 3))) h1 1 with
      | .error e => .error e
      | .ok (ms, hf, pf) => .ok (m0.take (m0.length - 3) :: ms, hf, pf)
  | _, _, _ => .error .valueError   -- "Not authenticated"

/-- `blockstream.decrypt_file(auth, f, archive)` (lines 17-26) followed by
the `a.filehash = self.blkhash` assignment of `verify_signatures`: header
construction (with the wide-open trial), the authentication loop (skipped if
the wide-open trial already fixed the key), the block loop; returns the
yielded plaintext pieces and the archive file hash. -/
def decryptFile (E : ExtCrypto) (unhash : Bytes → Bytes)
    (cands : List AuthCand) (ct : Bytes) :
    Except PyErr (List Bytes × Bytes) :=
  match headerInit E.dec unhash ct with
  | .error e => .error e
  | .ok st0 =>
    match (if st0.key.isSome then .ok st0 else authLoop E cands st0) with
    | .error e => .error e
    | .ok st =>
      match decryptBlocks E ct st with
      | .error e => .error e
      | .ok (ms, hf, _) => .ok (ms, hf)


/-- Every at-least-32-byte input to the decryption `Header` dies at the
`Key(pkhash=…)` call. -/
theorem headerInit_type_error
    (dec : Bytes → Bytes → Bytes → Bytes → Option Bytes)
    (unhash : Bytes → Bytes) (ct : Bytes) (h : 32 ≤ ct.length) :
    headerInit dec unhash ct = .error .typeError := by
  unfold headerInit
  rw [if_neg (by omega)]
  rfl

/-- Hence `decrypt_file` raises TypeError on every at-least-32-byte input,
whatever the auth candidates. -/
theorem decryptFile_type_error (E : ExtCrypto) (unhash : Bytes → Bytes)
    (cands : List AuthCand) (ct : Bytes) (h : 32 ≤ ct.length) :
    decryptFile E unhash cands ct = .error .typeError := by
  rw [decryptFile, headerInit_type_error E.dec unhash ct h]

/-- The authentication key a decryption candidate derives: `authkey(pwhash,
nonce)` for a passphrase, `derive_symkey(nonce, key, eph)` for a key.
(`ephd` is the decryption-side ephemeral key record, whose `pk` the
symmetric-key derivation uses.) -/
def candKey (E : ExtCrypto) (a : AuthCand) (n : Bytes) (ephd : KeyRec) :
    Bytes :=
  match a with
  | .pass pwh => E.authkeyF pwh n
  | .key kk =>
    (E.sha512 (n ++ E.x25519 (kk.sk.getD []) (ephd.pk.getD []))).take 32

/-- The probing keys a decryption with candidate set `cands` can ever try:
the wide-open all-zero key, and for every candidate its authkey and the
xor of every slot with that authkey. -/
def probeKeys (E : ExtCrypto) (cands : List AuthCand) (ct1 n : Bytes)
    (ephd : KeyRec) : List Bytes :=
  zeros 32 :: cands.flatMap fun a =>
    candKey E a n ephd :: (slotsOf ct1).map fun s => xorB s (candKey E a n ephd)

/-- The first-block offsets header probing can ever pass to `_find_block0`:
12 (wide-open and passphrase-without-slots trials) and the slot ends
`32, 64, …, 608`. -/
def probedBegins : List Nat := 12 :: (List.range 19).map fun i => (i + 1) * 32

/-- Idealised-AEAD cleanliness of the header-probing space for one file:
every trial decryption of a slice of the first kilobyte starting at a
probed offset, under the file nonce and any key the candidate set can
derive, fails unless it is the genuine block-0 decryption `(K, hlen,
b0end)`.  This is the (overwhelmingly probable) absence of stray AEAD
collisions that the source's trial-decrypt design assumes. -/
def ProbesClean (E : ExtCrypto) (ct1 n : Bytes) (keys : List Bytes)
    (K : Bytes) (hlen b0end : Nat) : Prop :=
  ∀ k ∈ keys, ∀ bg ∈ probedBegins, ∀ e ≤ min 1024 ct1.length,
    bg + 19 ≤ e →
    (E.dec (sliceB ct1 bg e) (ct1.take bg) n k).isSome →
    k = K ∧ bg = hlen ∧ e = b0end

/-- The deduplicated authentication values `encrypt_header` builds for a
non-wide-open auth bundle: the Argon2 authkeys of the distinct passphrase
hashes, then the derived symmetric keys of the distinct recipients. -/
def authValues (E : ExtCrypto) (eph : KeyRec) (auth : AuthE) : List Bytes :=
  ((auth.pwhashes.dedup.map fun pw =>
      E.authkeyF pw ((eph.pkhash.getD []).take 12)) ++
    (dedupKeys auth.recipients).map fun r =>
      (E.sha512 ((eph.pkhash.getD []).take 12 ++
        E.x25519 (eph.sk.getD []) (r.pk.getD []))).take 32).dedup

/-- The data portion of an encrypted file: header followed by the data
blocks (signature blocks, which the block loop never reads, omitted). -/
def dataCT (E : ExtCrypto) (header n K : Bytes) (chunks : List Bytes) :
    Bytes :=
  header ++ (encryptBlocks E header n K chunks 0).flatten

/-- The archive file hash: the block hash chained over all data blocks. -/
def fileHash (E : ExtCrypto) (header n K : Bytes) (chunks : List Bytes) :
    Bytes :=
  blkhashChain E.sha512 [] (encryptBlocks E header n K chunks 0)

/-- The length of the first remaining chunk, `0` at the end of the stream:
the `nextlen` value the previous block announced. -/
def headLen : List Bytes → Nat
  | [] => 0
  | c :: _ => c.length

/-- Total ciphertext length of the data blocks for the given chunks: each
block is `chunk ++ 3-byte nextlen` plus the 16-byte tag. -/
def blocksLen (cs : List Bytes) : Nat :=
  cs.foldr (fun c acc => c.length + 19 + acc) 0

/-! ### Byte-level facts used by the block-stream proofs -/

theorem fromLE_lt (l : Bytes) (h : ∀ b ∈ l, b < 256) :
    fromLE l < 2 ^ (8 * l.length) := by
  induction l with
  | nil => simp [fromLE]
  | cons b t ih =>
    have hb := h b (by simp)
    have ht := ih fun x hx => h x (by simp [hx])
    simp only [fromLE, List.length_cons]
    have : 2 ^ (8 * (t.length + 1)) = 256 * 2 ^ (8 * t.length) := by ring
    omega

theorem toLE_fromLE (l : Bytes) (h : ∀ b ∈ l, b < 256) :
    toLE l.length (fromLE l) = l := by
  induction l with
  | nil => rfl
  | cons b t ih =>
    have hb := h b (by simp)
    have ht := ih fun x hx => h x (by simp [hx])
    simp only [fromLE, List.length_cons, toLE]
    have h1 : (b + 256 * fromLE t) % 256 = b := by omega
    have h2 : (b + 256 * fromLE t) / 256 = fromLE t := by omega
    rw [h1, h2, ht]

theorem fromLE_toLE (l x : Nat) : fromLE (toLE l x) = x % 2 ^ (8 * l) := by
  induction l generalizing x with
  | zero => simp [toLE, fromLE, Nat.mod_one]
  | succ k ih =>
    simp only [toLE, fromLE, ih]
    have h1 : 2 ^ (8 * (k + 1)) = 256 * 2 ^ (8 * k) := by ring
    rw [h1, Nat.mod_mul]

/-- `noncegen` yields its seed first. -/
theorem nonceAt_zero (n : Bytes) (h : ∀ b ∈ n, b < 256) : nonceAt n 0 = n := by
  have := fromLE_lt n h
  rw [nonceAt, Nat.add_zero, Nat.mod_eq_of_lt this, toLE_fromLE n h]

theorem fromLE_le3 (x : Nat) (h : x < 2 ^ 24) : fromLE (le3 x) = x := by
  rw [le3, fromLE_toLE]
  exact Nat.mod_eq_of_lt (by simpa using h)

theorem le3_length (x : Nat) : (le3 x).length = 3 := toLE_length _ _

theorem sliceB_take_of_le (ct : Bytes) (pos L j : Nat) (hj : j ≤ L) :
    sliceB ct pos (pos + j) = (sliceB ct pos (pos + L)).take j := by
  have hmin : min (pos + j) (pos + L) = pos + j := by omega
  simp only [sliceB, List.take_drop, List.take_take, hmin]

theorem sliceB_drop (ct : Bytes) (pos L j : Nat) :
    sliceB ct (pos + j) (pos + L) = (sliceB ct pos (pos + L)).drop j := by
  simp only [sliceB, List.drop_drop]

theorem sliceB_length (ct : Bytes) (a b : Nat) (h : b ≤ ct.length) :
    (sliceB ct a b).length = b - a := by
  simp [sliceB, List.length_drop, List.length_take]
  omega

/-- A slice inside the first kilobyte reads the same from `ct` and from
`ct.take 1024`. -/
theorem sliceB_take1024 (ct : Bytes) (a b : Nat) (hb : b ≤ 1024) :
    sliceB (ct.take 1024) a b = sliceB ct a b := by
  simp [sliceB, List.take_take, Nat.min_eq_left hb]

theorem findSome?_unique {α β : Type} (f : α → Option β) (l : List α) (x : α)
    (v : β) (hmem : x ∈ l) (hx : f x = some v)
    (hothers : ∀ y ∈ l, (f y).isSome → y = x) :
    l.findSome? f = some v := by
  induction l with
  | nil => cases hmem
  | cons a t ih =>
    by_cases ha : (f a).isSome
    · have : a = x := hothers a (by simp) ha
      subst this
      rw [List.findSome?_cons_of_isSome _ ha, hx]
    · rw [List.findSome?_cons_of_isNone _ (by simpa using ha)]
      rcases List.mem_cons.mp hmem with h | h
      · subst h
        rw [hx] at ha
        simp at ha
      · exact ih h fun y hy hfy => hothers y (by simp [hy]) hfy

theorem toLE_valid (n x : Nat) : ∀ b ∈ toLE n x, b < 256 := by
  induction n generalizing x with
  | zero => simp [toLE]
  | succ k ih =>
    intro b hb
    simp only [toLE, List.mem_cons] at hb
    rcases hb with h | h
    · omega
    · exact ih _ b h

theorem fromLE_zeros (n : Nat) : fromLE (zeros n) = 0 := by
  induction n with
  | zero => rfl
  | succ k ih => simp [zeros, List.replicate_succ, fromLE, zeros] at ih ⊢; omega

theorem zeros_length (n : Nat) : (zeros n).length = n := List.length_replicate _ _

theorem xorB_valid (a b : Bytes) : ∀ x ∈ xorB a b, x < 256 := by
  rw [xorB]
  exact toLE_valid _ _

theorem fromLE_xorB (a b : Bytes) (hva : ∀ x ∈ a, x < 256)
    (hb : fromLE b < 2 ^ (8 * a.length)) :
    fromLE (xorB a b) = Nat.xor (fromLE a) (fromLE b) := by
  rw [xorB, fromLE_toLE]
  exact Nat.mod_eq_of_lt (Nat.xor_lt_two_pow (fromLE_lt a hva) hb)

theorem bytes_fromLE_inj (a b : Bytes) (hlen : a.length = b.length)
    (hva : ∀ x ∈ a, x < 256) (hvb : ∀ x ∈ b, x < 256)
    (h : fromLE a = fromLE b) : a = b := by
  rw [← toLE_fromLE a hva, ← toLE_fromLE b hvb, hlen, h]

theorem xorB_zeros_left (K : Bytes) (h32 : K.length = 32)
    (hv : ∀ b ∈ K, b < 256) : xorB (zeros 32) K = K := by
  rw [xorB, fromLE_zeros, zeros_length,
    show Nat.xor 0 (fromLE K) = fromLE K from Nat.zero_xor _, ← h32,
    toLE_fromLE K hv]

theorem xorB_cancel (K a : Bytes) (hK : K.length = 32) (ha : a.length = 32)
    (hvK : ∀ b ∈ K, b < 256) (hva : ∀ b ∈ a, b < 256) :
    xorB (xorB K a) a = K := by
  have hsl : (xorB K a).length = 32 := by rw [xorB_length, hK]
  have hva' : fromLE a < 2 ^ (8 * K.length) := by
    rw [hK, ← ha]
    exact fromLE_lt a hva
  have h1 : fromLE (xorB K a) = Nat.xor (fromLE K) (fromLE a) :=
    fromLE_xorB K a hvK hva'
  rw [xorB, h1, hsl,
    show Nat.xor (Nat.xor (fromLE K) (fromLE a)) (fromLE a) = fromLE K from
      Nat.xor_cancel_right _ _,
    ← hK, toLE_fromLE K hvK]

/-- Successful slot unmasking pins the slot: if `(K ⊕ a) ⊕ b = K` for
32-byte byte-valid values then `a = b`. -/
theorem xorB_slot_inj (K a b : Bytes) (hK : K.length = 32) (ha : a.length = 32)
    (hb : b.length = 32) (hvK : ∀ x ∈ K, x < 256) (hva : ∀ x ∈ a, x < 256)
    (hvb : ∀ x ∈ b, x < 256) (h : xorB (xorB K a) b = K) : a = b := by
  have hsl : (xorB K a).length = 32 := by rw [xorB_length, hK]
  have hbnd : ∀ c : Bytes, c.length = 32 → (∀ x ∈ c, x < 256) →
      fromLE c < 2 ^ 256 := by
    intro c hc hvc
    have := fromLE_lt c hvc
    rw [hc] at this
    exact this
  have h1 : fromLE (xorB (xorB K a) b) =
      Nat.xor (Nat.xor (fromLE K) (fromLE a)) (fromLE b) := by
    rw [fromLE_xorB _ _ (xorB_valid K a) (by rw [hsl]; exact hbnd b hb hvb),
      fromLE_xorB K a hvK (by rw [hK]; exact hbnd a ha hva)]
  rw [h] at h1
  have h2 : Nat.xor (fromLE a) (fromLE b) = 0 := by
    have h1' : fromLE K = (fromLE K ^^^ fromLE a) ^^^ fromLE b := h1
    rw [Nat.xor_assoc] at h1'
    have hx := congrArg (fun x => fromLE K ^^^ x) h1'
    simp only at hx
    rw [Nat.xor_self, Nat.xor_cancel_left] at hx
    exact hx.symm
  exact bytes_fromLE_inj a b (by rw [ha, hb]) hva hvb (Nat.xor_eq_zero.mp h2)

/-- The zero slot unmasked with authkey `b` succeeds only when `b` is the
file key itself. -/
theorem xorB_zero_slot (K b : Bytes) (hb : b.length = 32)
    (hvb : ∀ x ∈ b, x < 256) (h : xorB (zeros 32) b = K) : b = K := by
  rw [xorB_zeros_left b hb hvb] at h
  exact h

theorem blocksLen_cons (c : Bytes) (rest : List Bytes) :
    blocksLen (c :: rest) = c.length + 19 + blocksLen rest := rfl

theorem encryptBlocks_cons (E : ExtCrypto) (hdr nseed key : Bytes) (c : Bytes)
    (rest : List Bytes) (i : Nat) :
    encryptBlocks E hdr nseed key (c :: rest) i =
      E.enc (c ++ le3 (headLen rest)) (if i = 0 then hdr else [])
          (nonceAt nseed i) key ::
        encryptBlocks E hdr nseed key rest (i + 1) := by
  cases rest <;> rfl

/-- The sequential block-reading loop, fed the ciphertext region that
`encryptBlocks` produced for the remaining chunks starting at block index
`i ≥ 1`, decrypts them all back: it returns exactly the chunks, the block
hash chained over the blocks, and the end position. -/
theorem decryptBlocksLoop_spec (E : ExtCrypto) (ct hdr key nseed : Bytes)
    (cs : List Bytes) (i pos fuel : Nat) (h : Bytes)
    (hi : i ≠ 0)
    (hcs : ∀ c ∈ cs, 0 < c.length ∧ c.length < 2 ^ 24)
    (hencl : ∀ m a no, (E.enc m a no key).length = m.length + 16)
    (hdecenc : ∀ m a no, E.dec (E.enc m a no key) a no key = some m)
    (hlay : sliceB ct pos (pos + blocksLen cs) =
      (encryptBlocks E hdr nseed key cs i).flatten)
    (hfuel : cs.length < fuel) :
    decryptBlocksLoop E ct key nseed fuel pos (headLen cs) h i =
      .ok (cs, blkhashChain E.sha512 h (encryptBlocks E hdr nseed key cs i),
           pos + blocksLen cs) := by
  induction cs generalizing i pos fuel h with
  | nil =>
    cases fuel with
    | zero => omega
    | succ f => simp [decryptBlocksLoop, headLen, blocksLen, encryptBlocks,
        blkhashChain]
  | cons c rest ih =>
    obtain ⟨hc0, hc24⟩ := hcs c (by simp)
    obtain ⟨k, hk⟩ : ∃ k, c.length = k + 1 := ⟨c.length - 1, by omega⟩
    cases fuel with
    | zero => simp at hfuel
    | succ f =>
    have hhead : headLen (c :: rest) = k + 1 := by simp [headLen, hk]
    have hnext24 : headLen rest < 2 ^ 24 := by
      cases rest with
      | nil => simp [headLen]
      | cons c2 t => exact (hcs c2 (by simp)).2
    rw [hhead]
    rw [encryptBlocks_cons, if_neg hi] at hlay
    set B := E.enc (c ++ le3 (headLen rest)) [] (nonceAt nseed i) key with hB
    have hBlen : B.length = k + 1 + 19 := by
      rw [hB, hencl]
      simp [le3_length]
      omega
    rw [List.flatten_cons] at hlay
    have hcons : blocksLen (c :: rest) = k + 1 + 19 + blocksLen rest := by
      rw [blocksLen_cons]
      omega
    rw [hcons] at hlay
    have hs1 : sliceB ct pos (pos + (k + 1 + 19)) = B := by
      rw [sliceB_take_of_le ct pos (k + 1 + 19 + blocksLen rest) (k + 1 + 19)
        (by omega), hlay, List.take_left' hBlen]
    have hs2 : sliceB ct (pos + (k + 1 + 19)) (pos + (k + 1 + 19) +
        blocksLen rest) = (encryptBlocks E hdr nseed key rest (i + 1)).flatten := by
      have harith : pos + (k + 1 + 19) + blocksLen rest =
          pos + (k + 1 + 19 + blocksLen rest) := by omega
      rw [harith]
      rw [show pos + (k + 1 + 19) = pos + (k + 1 + 19) from rfl, sliceB_drop,
        hlay, List.drop_left' hBlen]
    have htag : sliceB ct (pos + (k + 1 + 19) - 16) (pos + (k + 1 + 19)) =
        last16 B := by
      have harith : pos + (k + 1 + 19) - 16 = pos + (k + 1 + 3) := by omega
      rw [harith, sliceB_drop, hs1, last16, hBlen]
      congr 1
    have hdecB : E.dec (sliceB ct pos (pos + (k + 1 + 19))) []
        (nonceAt nseed i) key = some (c ++ le3 (headLen rest)) := by
      rw [hs1, hB, hdecenc]
    have hmlen : (c ++ le3 (headLen rest)).length = k + 4 := by
      simp [le3_length]
      omega
    have hmdrop : (c ++ le3 (headLen rest)).drop (k + 4 - 3) =
        le3 (headLen rest) := List.drop_left' (by omega)
    have hmtake : (c ++ le3 (headLen rest)).take (k + 4 - 3) = c :=
      List.take_left' (by omega)
    have hrec := ih (i + 1) (pos + (k + 1 + 19)) f
      (E.sha512 (h ++ last16 B)) (by simp)
      (fun x hx => hcs x (by simp [hx])) hs2 (by simp at hfuel; omega)
    simp only [decryptBlocksLoop, hdecB, hmlen, hmdrop, hmtake,
      fromLE_le3 _ hnext24, htag, hrec, encryptBlocks_cons, if_neg hi,
      blkhashChain, ← hB]
    have harith2 : pos + (k + 1 + 19) + blocksLen rest =
        pos + blocksLen (c :: rest) := by omega
    rw [harith2]

/-- `decrypt_blocks` on an authenticated state whose `(key, block0pos,
block0len)` match the genuine encryption layout recovers all the chunks and
the encryption-side block hash. -/
theorem decryptBlocks_spec (E : ExtCrypto) (ct key nseed hdr : Bytes)
    (c0 : Bytes) (rest : List Bytes) (st : HeaderSt)
    (hstk : st.key = some key)
    (hstp : st.block0pos = some hdr.length)
    (hstl : st.block0len = some c0.length)
    (hstn : st.nonce = nseed)
    (hcs : ∀ c ∈ c0 :: rest, 0 < c.length ∧ c.length < 2 ^ 24)
    (hencl : ∀ m a no, (E.enc m a no key).length = m.length + 16)
    (hdecenc : ∀ m a no, E.dec (E.enc m a no key) a no key = some m)
    (hpre : ct.take hdr.length = hdr)
    (hlay : sliceB ct hdr.length (hdr.length + blocksLen (c0 :: rest)) =
      (encryptBlocks E hdr nseed key (c0 :: rest) 0).flatten)
    (hfuel : rest.length < ct.length) :
    decryptBlocks E ct st =
      .ok (c0 :: rest,
        blkhashChain E.sha512 []
          (encryptBlocks E hdr nseed key (c0 :: rest) 0),
        hdr.length + blocksLen (c0 :: rest)) := by
  have hc0 := (hcs c0 (by simp)).1
  have hnext24 : headLen rest < 2 ^ 24 := by
    cases rest with
    | nil => simp [headLen]
    | cons c2 t => exact (hcs c2 (by simp)).2
  rw [encryptBlocks_cons, if_pos rfl] at hlay
  set B := E.enc (c0 ++ le3 (headLen rest)) hdr (nonceAt nseed 0) key with hB
  have hBlen : B.length = c0.length + 19 := by
    rw [hB, hencl]
    simp [le3_length]
  rw [List.flatten_cons] at hlay
  have hcons : blocksLen (c0 :: rest) = c0.length + 19 + blocksLen rest := by
    rw [blocksLen_cons]
  rw [hcons] at hlay
  have hs1 : sliceB ct hdr.length (hdr.length + (c0.length + 19)) = B := by
    rw [sliceB_take_of_le ct hdr.length (c0.length + 19 + blocksLen rest)
      (c0.length + 19) (by omega), hlay, List.take_left' hBlen]
  have hs2 : sliceB ct (hdr.length + (c0.length + 19))
      (hdr.length + (c0.length + 19) + blocksLen rest) =
      (encryptBlocks E hdr nseed key rest 1).flatten := by
    have harith : hdr.length + (c0.length + 19) + blocksLen rest =
        hdr.length + (c0.length + 19 + blocksLen rest) := by omega
    rw [harith, sliceB_drop, hlay, List.drop_left' hBlen]
  have htag : sliceB ct (hdr.length + (c0.length + 19) - 16)
      (hdr.length + (c0.length + 19)) = last16 B := by
    have harith : hdr.length + (c0.length + 19) - 16 =
        hdr.length + (c0.length + 3) := by omega
    rw [harith, sliceB_drop, hs1, last16, hBlen]
    congr 1
  have hdecB : E.dec (sliceB ct hdr.length (hdr.length + (c0.length + 19)))
      (ct.take hdr.length) (nonceAt nseed 0) key =
      some (c0 ++ le3 (headLen rest)) := by
    rw [hs1, hpre, hB, hdecenc]
  have hmlen : (c0 ++ le3 (headLen rest)).length = c0.length + 3 := by
    simp [le3_length]
  have hmdrop : (c0 ++ le3 (headLen rest)).drop c0.length =
      le3 (headLen rest) := List.drop_left' rfl
  have hmtake : (c0 ++ le3 (headLen rest)).take c0.length = c0 :=
    List.take_left' rfl
  have hrec := decryptBlocksLoop_spec E ct hdr key nseed rest 1
    (hdr.length + (c0.length + 19)) ct.length
    (E.sha512 (([] : Bytes) ++ last16 B)) (by simp)
    (fun x hx => hcs x (by simp [hx])) hencl hdecenc hs2 hfuel
  have harith4 : hdr.length + (c0.length + 19) + blocksLen rest =
      hdr.length + blocksLen (c0 :: rest) := by
    rw [hcons]
    omega
  have harith3 : hdr.length + c0.length + 19 =
      hdr.length + (c0.length + 19) := by omega
  simp only [decryptBlocks, hstk, hstp, hstl, hstn]
  rw [harith3]
  simp only [hdecB, hmlen, Nat.add_sub_cancel, hmdrop, hmtake,
    fromLE_le3 _ hnext24, htag, hrec, harith4, encryptBlocks_cons, if_pos,
    blkhashChain, ← hB]

/-! ### Header-probing facts -/

theorem sliceB_append_shift (pre X : Bytes) (a b : Nat) :
    sliceB (pre ++ X) (pre.length + a) (pre.length + b) = sliceB X a b := by
  rw [sliceB, sliceB, List.take_append, List.drop_append]

theorem flatten32_slice (L : List Bytes) (suf : Bytes)
    (hL : ∀ x ∈ L, x.length = 32) (j : Nat) (hj : j < L.length) :
    sliceB (L.flatten ++ suf) (j * 32) (j * 32 + 32) = L.get ⟨j, hj⟩ := by
  induction L generalizing j suf with
  | nil => simp at hj
  | cons x t ih =>
    have hx : x.length = 32 := hL x (by simp)
    cases j with
    | zero =>
      simp only [List.flatten_cons, List.get, Nat.zero_mul, Nat.zero_add]
      rw [List.append_assoc, sliceB, List.drop_zero, List.take_left' hx]
    | succ k =>
      have e1 : (k + 1) * 32 = x.length + k * 32 := by rw [hx]; ring
      simp only [List.flatten_cons]
      rw [List.append_assoc, e1,
        show List.length x + k * 32 + 32 = List.length x + (k * 32 + 32) from
          by omega,
        sliceB_append_shift]
      exact ih _ (fun y hy => hL y (by simp [hy])) k (by simpa using hj)

theorem snd_mem_of_mem_enum {α : Type} {l : List α} {p : Nat × α}
    (h : p ∈ l.enum) : p.2 ∈ l :=
  List.get?_mem (List.mem_enum_iff_get?.mp h)

theorem enum_getElem_mem {α : Type} (l : List α) (i : Nat) (h : i < l.length) :
    (i, l.get ⟨i, h⟩) ∈ l.enum := by
  apply List.mem_enum_iff_get?.mpr
  simp [List.get?_eq_getElem?, List.getElem?_eq_getElem h]

theorem mem_enum_eq {α : Type} {l : List α} {p : Nat × α} (h : p ∈ l.enum) :
    ∃ hlt : p.1 < l.length, p.2 = l.get ⟨p.1, hlt⟩ := by
  obtain ⟨hlt, hget⟩ := List.get?_eq_some.mp (List.mem_enum_iff_get?.mp h)
  exact ⟨hlt, hget.symm⟩

theorem flatten_length_const32 (L : List Bytes)
    (hL : ∀ x ∈ L, x.length = 32) : L.flatten.length = 32 * L.length := by
  induction L with
  | nil => simp
  | cons x t ih =>
    simp only [List.flatten_cons, List.length_append, List.length_cons,
      hL x (by simp), ih fun y hy => hL y (by simp [hy])]
    omega

theorem encryptBlocks_flatten_length (E : ExtCrypto) (hdr nseed key : Bytes)
    (cs : List Bytes) (i : Nat)
    (hencl : ∀ m a no, (E.enc m a no key).length = m.length + 16) :
    (encryptBlocks E hdr nseed key cs i).flatten.length = blocksLen cs := by
  induction cs generalizing i with
  | nil => simp [encryptBlocks, blocksLen]
  | cons c t ih =>
    rw [encryptBlocks_cons]
    simp only [List.flatten_cons, List.length_append, hencl,
      List.length_append, le3_length, blocksLen_cons, ih]
    try omega

theorem blocksLen_ge (cs : List Bytes) (h : ∀ c ∈ cs, 0 < c.length) :
    20 * cs.length ≤ blocksLen cs := by
  induction cs with
  | nil => simp [blocksLen]
  | cons c t ih =>
    have := h c (by simp)
    have ht := ih fun y hy => h y (by simp [hy])
    rw [blocksLen_cons]
    simp only [List.length_cons]
    omega

theorem dedupKeys_ne_nil (l : List KeyRec) (h : l ≠ []) : dedupKeys l ≠ [] := by
  have aux : ∀ (m : List KeyRec) (acc : List KeyRec), acc ≠ [] →
      m.foldl (fun acc k =>
        if acc.any (fun r => r.pk = k.pk) then acc else acc ++ [k]) acc ≠ [] := by
    intro m
    induction m with
    | nil => intro acc hacc; simpa using hacc
    | cons x xs ih =>
      intro acc hacc
      rw [List.foldl_cons]
      apply ih
      split
      · exact hacc
      · simp
  cases l with
  | nil => cases h rfl
  | cons r t =>
    rw [dedupKeys, List.foldl_cons]
    apply aux
    simp

theorem mapM_deriveSymkey (E : ExtCrypto) (n : Bytes) (eph : KeyRec)
    (l : List KeyRec) (hsk : eph.sk.isSome) (hl : ∀ r ∈ l, r.pk.isSome) :
    l.mapM (fun r => deriveSymkey E n eph r) =
      .ok (l.map fun r =>
        (E.sha512 (n ++ E.x25519 (eph.sk.getD []) (r.pk.getD []))).take 32) := by
  induction l with
  | nil => rfl
  | cons r t ih =>
    obtain ⟨sk, hske⟩ := Option.isSome_iff_exists.mp hsk
    obtain ⟨rp, hrp⟩ := Option.isSome_iff_exists.mp (hl r (by simp))
    rw [List.mapM_cons, ih fun y hy => hl y (by simp [hy])]
    simp [deriveSymkey, hske, hrp, Bind.bind, Except.bind, pure, Except.pure]

theorem findBlock0_eq_none (dec : Bytes → Bytes → Bytes → Bytes → Option Bytes)
    (ct nonce k : Bytes) (bg : Nat)
    (hall : ∀ e, bg + 19 ≤ e → e ≤ min 1024 ct.length →
      dec (sliceB ct bg e) (ct.take bg) nonce k = none) :
    findBlock0 dec ct nonce k bg = none := by
  rw [findBlock0, List.findSome?_eq_none_iff]
  intro e he
  have hmem := List.mem_range'.mp (List.mem_reverse.mp he)
  obtain ⟨i, hi, rfl⟩ := hmem
  rw [hall _ (by omega) (by omega)]
  rfl

theorem findBlock0_eq_some (dec : Bytes → Bytes → Bytes → Bytes → Option Bytes)
    (ct nonce k m0 : Bytes) (bg b0end : Nat)
    (hgen : dec (sliceB ct bg b0end) (ct.take bg) nonce k = some m0)
    (h1 : bg + 19 ≤ b0end) (h2 : b0end ≤ min 1024 ct.length)
    (huni : ∀ e, bg + 19 ≤ e → e ≤ min 1024 ct.length →
      (dec (sliceB ct bg e) (ct.take bg) nonce k).isSome → e = b0end) :
    findBlock0 dec ct nonce k bg = some (m0, bg, b0end - bg - 19) := by
  rw [findBlock0]
  apply findSome?_unique _ _ b0end
  · rw [List.mem_reverse, List.mem_range']
    exact ⟨b0end - (bg + 19), by omega, by omega⟩
  · rw [hgen]
    rfl
  · intro e he hsome
    obtain ⟨i, hi, rfl⟩ := List.mem_range'.mp (List.mem_reverse.mp he)
    have hds : (dec (sliceB ct bg (bg + 19 + 1 * i)) (ct.take bg) nonce
        k).isSome := by
      cases hdec : dec (sliceB ct bg (bg + 19 + 1 * i)) (ct.take bg) nonce k with
      | none => rw [hdec] at hsome; simp at hsome
      | some m => rfl
    exact huni _ (by omega) (by omega) hds

theorem slotsOf_length_le (ct : Bytes) : (slotsOf ct).length ≤ 19 := by
  simp only [slotsOf, List.length_cons, List.length_map]
  have := List.length_filter_le
    (fun i => decide ((i + 1) * 32 + 19 ≤ ct.length)) (List.range' 1 18)
  simp only [List.length_range'] at this
  omega

theorem slotend_mem_probedBegins (ct : Bytes) (b : Nat)
    (hb : b ∈ (List.range (slotsOf ct).length).map fun i => (i + 1) * 32) :
    b ∈ probedBegins := by
  simp only [List.mem_map, List.mem_range] at hb
  obtain ⟨i, hi, rfl⟩ := hb
  have h19 := slotsOf_length_le ct
  simp only [probedBegins, List.mem_cons, List.mem_map, List.mem_range]
  exact Or.inr ⟨i, by omega, rfl⟩

theorem findSlots_eq_none (dec : Bytes → Bytes → Bytes → Bytes → Option Bytes)
    (ct nonce ak : Bytes)
    (hall : ∀ s ∈ slotsOf ct, ∀ bgn ∈ probedBegins,
      findBlock0 dec ct nonce (xorB s ak) bgn = none) :
    findSlots dec ct nonce ak = none := by
  rw [findSlots, List.findSome?_eq_none_iff]
  intro p hp
  rw [List.findSome?_eq_none_iff]
  intro bgn hbgn
  rw [hall p.2 (snd_mem_of_mem_enum hp) bgn
    (slotend_mem_probedBegins ct bgn (List.mem_of_mem_drop hbgn))]
  rfl

theorem findSlots_eq_some (dec : Bytes → Bytes → Bytes → Bytes → Option Bytes)
    (ct nonce ak K m0 : Bytes) (istar hlen b0len : Nat)
    (hi : istar < (slotsOf ct).length)
    (hkey : xorB ((slotsOf ct).get ⟨istar, hi⟩) ak = K)
    (hmem : hlen ∈
      ((List.range (slotsOf ct).length).map fun i => (i + 1) * 32).drop istar)
    (hsucc : findBlock0 dec ct nonce K hlen = some (m0, hlen, b0len))
    (hfail : ∀ j, ∀ hj : j < (slotsOf ct).length, ∀ bgn ∈
        ((List.range (slotsOf ct).length).map fun i => (i + 1) * 32).drop j,
      ¬(j = istar ∧ bgn = hlen) →
      findBlock0 dec ct nonce (xorB ((slotsOf ct).get ⟨j, hj⟩) ak) bgn = none) :
    findSlots dec ct nonce ak =
      some (K, m0, hlen, b0len, istar, hlen / 32) := by
  rw [findSlots]
  apply findSome?_unique _ _ (istar, (slotsOf ct).get ⟨istar, hi⟩)
  · exact enum_getElem_mem _ _ hi
  · apply findSome?_unique _ _ hlen
    · exact hmem
    · rw [hkey, hsucc]
      rfl
    · intro bgn hbgn hsome
      by_contra hne
      have hfl := hfail istar hi bgn hbgn (fun hpair => hne hpair.2)
      rw [hkey] at hfl
      rw [hkey, hfl] at hsome
      cases hsome
  · intro y hy hsome
    obtain ⟨a, b⟩ := y
    obtain ⟨hlt, hy2⟩ := mem_enum_eq hy
    simp only at hlt hy2 hsome ⊢
    obtain ⟨v, hv⟩ := Option.isSome_iff_exists.mp hsome
    obtain ⟨bgn, hbgn, hfb⟩ := List.exists_of_findSome?_eq_some hv
    subst hy2
    have hpair : a = istar ∧ bgn = hlen := by
      by_contra hne
      rw [hfail a hlt bgn hbgn hne] at hfb
      cases hfb
    obtain ⟨h1, h2⟩ := hpair
    subst h1
    rfl

theorem mem_of_mem_dedupKeys {x : KeyRec} {l : List KeyRec}
    (h : x ∈ dedupKeys l) : x ∈ l := by
  have aux : ∀ (m : List KeyRec) (acc : List KeyRec),
      x ∈ m.foldl (fun acc k =>
        if acc.any (fun r => r.pk = k.pk) then acc else acc ++ [k]) acc →
      x ∈ acc ∨ x ∈ m := by
    intro m
    induction m with
    | nil => intro acc hm; exact Or.inl hm
    | cons a t ih =>
      intro acc hm
      rw [List.foldl_cons] at hm
      rcases ih _ hm with hacc | ht
      · by_cases hc : acc.any (fun r => r.pk = a.pk)
        · rw [if_pos hc] at hacc
          exact Or.inl hacc
        · rw [if_neg hc] at hacc
          rcases List.mem_append.mp hacc with h1 | h1
          · exact Or.inl h1
          · simp at h1
            simp [h1]
      · simp [ht]
  rcases aux l [] h with h1 | h1
  · simp at h1
  · exact h1

/-- Over a ciphertext starting with a 32-byte pkhash and `L.length` 32-byte
slots, `_find_slots` reads back exactly the written slots (after the
implicit zero slot). -/
theorem slotsOf_reads (pkh : Bytes) (L : List Bytes) (suf : Bytes)
    (hpkh : pkh.length = 32) (hL : ∀ x ∈ L, x.length = 32)
    (hlen18 : L.length ≤ 18)
    (hfit : 32 * (L.length + 1) + 19 ≤
      (((pkh ++ L.flatten) ++ suf).take 1024).length) :
    L.length + 1 ≤ (slotsOf (((pkh ++ L.flatten) ++ suf).take 1024)).length ∧
    ∀ j, j < L.length →
      (slotsOf (((pkh ++ L.flatten) ++ suf).take 1024))[j + 1]? =
        L[j]? := by
  set ct1 := ((pkh ++ L.flatten) ++ suf).take 1024 with hct1
  have hsplit : List.range' 1 18 =
      List.range' 1 L.length ++ List.range' (1 + L.length) (18 - L.length) := by
    rw [List.range'_append_1]
    congr 1
    omega
  have hkeep : (List.range' 1 L.length).filter
      (fun i => (i + 1) * 32 + 19 ≤ ct1.length) = List.range' 1 L.length := by
    apply List.filter_eq_self.mpr
    intro a ha
    obtain ⟨i, hi, rfl⟩ := List.mem_range'.mp ha
    simp only [decide_eq_true_eq]
    omega
  have hF : (List.range' 1 18).filter
      (fun i => (i + 1) * 32 + 19 ≤ ct1.length) =
      List.range' 1 L.length ++
        (List.range' (1 + L.length) (18 - L.length)).filter
          (fun i => (i + 1) * 32 + 19 ≤ ct1.length) := by
    rw [hsplit, List.filter_append, hkeep]
  constructor
  · simp only [slotsOf, List.length_cons, List.length_map, hF,
      List.length_append, List.length_range']
    omega
  · intro j hj
    have hjlt : j < ((List.range' 1 18).filter
        (fun i => (i + 1) * 32 + 19 ≤ ct1.length)).length := by
      rw [hF]
      simp only [List.length_append, List.length_range']
      omega
    have hslot : (slotsOf ct1)[j + 1]? =
        some (sliceB ct1 (((List.range' 1 18).filter
          (fun i => (i + 1) * 32 + 19 ≤ ct1.length))[j] * 32)
          ((((List.range' 1 18).filter
            (fun i => (i + 1) * 32 + 19 ≤ ct1.length))[j] + 1) * 32)) := by
      simp only [slotsOf, List.getElem?_cons_succ, List.getElem?_map,
        List.getElem?_eq_getElem hjlt]
      rfl
    have hidx : ((List.range' 1 18).filter
        (fun i => (i + 1) * 32 + 19 ≤ ct1.length))[j] = 1 + j := by
      have hq : ((List.range' 1 18).filter
          (fun i => (i + 1) * 32 + 19 ≤ ct1.length))[j]? = some (1 + j) := by
        rw [hF, List.getElem?_append_left
          (by simp only [List.length_range']; omega)]
        rw [List.getElem?_range' _ _ (by omega)]
        simp
      rw [List.getElem?_eq_getElem hjlt] at hq
      exact Option.some.inj hq
    rw [hslot, hidx]
    have h32 : (1 + j + 1) * 32 ≤ 1024 := by omega
    have hread : sliceB ct1 ((1 + j) * 32) ((1 + j + 1) * 32) = L[j] := by
      rw [hct1, sliceB_take1024 _ _ _ h32, List.append_assoc]
      have e1 : (1 + j) * 32 = pkh.length + j * 32 := by rw [hpkh]; ring
      have e2 : (1 + j + 1) * 32 = pkh.length + (j * 32 + 32) := by
        rw [hpkh]; ring
      rw [e1, e2, sliceB_append_shift]
      have := flatten32_slice L suf hL j hj
      rw [this]
      simp [List.get_eq_getElem]
    rw [hread, List.getElem?_eq_getElem hj]

theorem authLoop_append_fail (E : ExtCrypto) (pre rest : List AuthCand)
    (st : HeaderSt)
    (hfail : ∀ a ∈ pre, authenticate E st a = .error .cryptoError) :
    authLoop E (pre ++ rest) st = authLoop E rest st := by
  induction pre with
  | nil => rfl
  | cons a t ih =>
    rw [List.cons_append]
    rw [show authLoop E (a :: (t ++ rest)) st =
      (match authenticate E st a with
        | .ok st' => .ok st'
        | .error .cryptoError => authLoop E (t ++ rest) st
        | .error e => .error e) from rfl]
    rw [hfail a (by simp)]
    exact ih fun y hy => hfail y (by simp [hy])

/-! ## OpenSSH secret-key decoding, from `covert/sshkey.py` (`decode_sk`)

The embedded part is the "Read secret keys" loop (lines 93-108), which runs
once per public key counted in the container header and must consume exactly
the fields of every entry.  Byte strings are read with the nested helpers
`read_uint32` / `read_bytes` / `read_string` (lines 35-52). -/

/-- `int.from_bytes(b, "big")`. -/
def fromBE (b : Bytes) : Nat := b.foldl (fun acc x => acc * 256 + x) 0

/-- `read_uint32`: consume 4 big-endian bytes. -/
def readUint32 (data : Bytes) : Except PyErr (Nat × Bytes) :=
  if data.length < 4 then .error .valueError   -- "cannot read int"
  else .ok (fromBE (data.take 4), data.drop 4)

/-- `read_bytes(n)`. -/
def readBytes (n : Nat) (data : Bytes) : Except PyErr (Bytes × Bytes) :=
  if n > data.length then .error .valueError   -- "cannot read data"
  else .ok (data.take n, data.drop n)

/-- `read_string`: a length-prefixed byte string. -/
def readString (data : Bytes) : Except PyErr (Bytes × Bytes) :=
  match readUint32 data with
  | .error e => .error e
  | .ok (n, rest) => readBytes n rest

/-- `[read_string() for _ in range(k)]`. -/
def readStrings : Nat → Bytes → Except PyErr (List Bytes × Bytes)
  | 0, data => .ok ([], data)
  | k + 1, data =>
    match readString data with
    | .error e => .error e
    | .ok (s, rest) =>
      match readStrings k rest with
      | .error e => .error e
      | .ok (l, rest') => .ok (s :: l, rest')

/-- ASCII bytes of a key-type tag. -/
def ascii (s : String) : Bytes := s.toList.map Char.toNat

/-- The secret-key reading loop of `decode_sk` (lines 93-108): one entry per
public key; ed25519 entries contribute their `(edpk, edsk, comment)` to the
result (the source wraps them in `pubkey.Key`), other recognised types are
skipped after consuming their fields, unknown types raise.  The counts
consumed after the type string are those of the source: ed25519 3,
ecdsa-sha2-nistp256 4 (including the comment), ssh-rsa 7, ssh-dss 6. -/
def readSecretKeys : Nat → Bytes → Except PyErr (List (Bytes × Bytes × Bytes))
  | 0, _ => .ok []
  | n + 1, data =>
    match readString data with
    | .error e => .error e
    | .ok (t, rest) =>
      if t = ascii "ssh-ed25519" then
        match readStrings 3 rest with
        | .error e => .error e
        | .ok (fields, rest') =>
          match readSecretKeys n rest' with
          | .error e => .error e
          | .ok keys =>
            .ok ((fields.getD 0 [], fields.getD 1 [], fields.getD 2 []) :: keys)
      else if t = ascii "ecdsa-sha2-nistp256" then
        match readStrings 4 rest with
        | .error e => .error e
        | .ok (_, rest') => readSecretKeys n rest'
      else if t = ascii "ssh-rsa" then
        match readStrings 7 rest with
        | .error e => .error e
        | .ok (_, rest') => readSecretKeys n rest'
      else if t = ascii "ssh-dss" then
        match readStrings 6 rest with
        | .error e => .error e
        | .ok (_, rest') => readSecretKeys n rest'
      else .error .valueError   -- "Unknown SSH key type"

/-- The same loop as the claim words it ("6 bignums plus a comment for
ssh-rsa, 4 strings plus a comment for ecdsa-sha2-nistp256, 5 bignums plus a
comment for ssh-dss"): for an ecdsa entry it would consume five strings
after the type instead of the source's four. -/
def readSecretKeysClaim : Nat → Bytes → Except PyErr (List (Bytes × Bytes × Bytes))
  | 0, _ => .ok []
  | n + 1, data =>
    match readString data with
    | .error e => .error e
    | .ok (t, rest) =>
      if t = ascii "ssh-ed25519" then
        match readStrings 3 rest with
        | .error e => .error e
        | .ok (fields, rest') =>
          match readSecretKeysClaim n rest' with
          | .error e => .error e
          | .ok keys =>
            .ok ((fields.getD 0 [], fields.getD 1 [], fields.getD 2 []) :: keys)
      else if t = ascii "ecdsa-sha2-nistp256" then
        match readStrings 5 rest with
        | .error e => .error e
        | .ok (_, rest') => readSecretKeysClaim n rest'
      else if t = ascii "ssh-rsa" then
        match readStrings 7 rest with
        | .error e => .error e
        | .ok (_, rest') => readSecretKeysClaim n rest'
      else if t = ascii "ssh-dss" then
        match readStrings 6 rest with
        | .error e => .error e
        | .ok (_, rest') => readSecretKeysClaim n rest'
      else .error .valueError

/-- Abstract SSH private-section entries, as laid out on the wire. -/
inductive SSHEnt where
  | ed (edpk edsk comment : Bytes)
  | ecdsa (f1 f2 f3 comment : Bytes)
  | rsa (f1 f2 f3 f4 f5 f6 comment : Bytes)
  | dss (f1 f2 f3 f4 f5 comment : Bytes)

/-- `n.to_bytes(4, "big")` (length prefixes are 32-bit). -/
def be4 (n : Nat) : Bytes :=
  [n / 2 ^ 24 % 256, n / 2 ^ 16 % 256, n / 2 ^ 8 % 256, n % 256]

/-- SSH wire encoding of a length-prefixed string. -/
def encStr (s : Bytes) : Bytes := be4 s.length ++ s

/-- SSH wire encoding of one private-section entry. -/
def encEnt : SSHEnt → Bytes
  | .ed a b c =>
    encStr (ascii "ssh-ed25519") ++ encStr a ++ encStr b ++ encStr c
  | .ecdsa a b c d =>
    encStr (ascii "ecdsa-sha2-nistp256") ++ encStr a ++ encStr b ++ encStr c ++
      encStr d
  | .rsa a b c d e f g =>
    encStr (ascii "ssh-rsa") ++ encStr a ++ encStr b ++ encStr c ++ encStr d ++
      encStr e ++ encStr f ++ encStr g
  | .dss a b c d e f =>
    encStr (ascii "ssh-dss") ++ encStr a ++ encStr b ++ encStr c ++ encStr d ++
      encStr e ++ encStr f

/-- All fields of an entry fit their 32-bit length prefixes. -/
def goodEnt : SSHEnt → Prop
  | .ed a b c => a.length < 2 ^ 32 ∧ b.length < 2 ^ 32 ∧ c.length < 2 ^ 32
  | .ecdsa a b c d => a.length < 2 ^ 32 ∧ b.length < 2 ^ 32 ∧
      c.length < 2 ^ 32 ∧ d.length < 2 ^ 32
  | .rsa a b c d e f g => a.length < 2 ^ 32 ∧ b.length < 2 ^ 32 ∧
      c.length < 2 ^ 32 ∧ d.length < 2 ^ 32 ∧ e.length < 2 ^ 32 ∧
      f.length < 2 ^ 32 ∧ g.length < 2 ^ 32
  | .dss a b c d e f => a.length < 2 ^ 32 ∧ b.length < 2 ^ 32 ∧
      c.length < 2 ^ 32 ∧ d.length < 2 ^ 32 ∧ e.length < 2 ^ 32 ∧
      f.length < 2 ^ 32

/-- The ed25519 keys among a list of entries, in order. -/
def edKeys : List SSHEnt → List (Bytes × Bytes × Bytes)
  | [] => []
  | .ed a b c :: t => (a, b, c) :: edKeys t
  | _ :: t => edKeys t

theorem fromBE_be4 (n : Nat) (h : n < 2 ^ 32) : fromBE (be4 n) = n := by
  simp only [fromBE, be4, List.foldl_cons, List.foldl_nil]
  omega

theorem readString_encStr (s r : Bytes) (h : s.length < 2 ^ 32) :
    readString (encStr s ++ r) = .ok (s, r) := by
  have hlen : (encStr s ++ r).length = 4 + s.length + r.length := by
    simp [encStr, be4]
    omega
  have htake : (encStr s ++ r).take 4 = be4 s.length := by
    simp [encStr, be4]
  have hdrop : (encStr s ++ r).drop 4 = s ++ r := by
    simp [encStr, be4]
  rw [readString, readUint32, if_neg (by omega), htake, hdrop, fromBE_be4 _ h]
  simp [readBytes, List.take_left, List.drop_left]

/-- Wire type tag of an entry. -/
def typeTag : SSHEnt → Bytes
  | .ed _ _ _ => ascii "ssh-ed25519"
  | .ecdsa _ _ _ _ => ascii "ecdsa-sha2-nistp256"
  | .rsa _ _ _ _ _ _ _ => ascii "ssh-rsa"
  | .dss _ _ _ _ _ _ => ascii "ssh-dss"

/-- Fields following the type string of an entry. -/
def fieldsOf : SSHEnt → List Bytes
  | .ed a b c => [a, b, c]
  | .ecdsa a b c d => [a, b, c, d]
  | .rsa a b c d e f g => [a, b, c, d, e, f, g]
  | .dss a b c d e f => [a, b, c, d, e, f]

theorem encEnt_eq (e : SSHEnt) :
    encEnt e = encStr (typeTag e) ++ ((fieldsOf e).map encStr).flatten := by
  cases e <;> simp [encEnt, typeTag, fieldsOf]

theorem readStrings_enc (ss : List Bytes) (r : Bytes)
    (h : ∀ s ∈ ss, s.length < 2 ^ 32) :
    readStrings ss.length ((ss.map encStr).flatten ++ r) = .ok (ss, r) := by
  induction ss generalizing r with
  | nil => simp [readStrings]
  | cons s t ih =>
    have h1 := readString_encStr s ((t.map encStr).flatten ++ r) (h s (by simp))
    have h2 := ih r (fun x hx => h x (by simp [hx]))
    simp [readStrings, h1, h2]

/-- C8 (amended): the SSH decoder skips each non-ed25519 key entry while
consuming exactly its fields — seven strings after the type for ssh-rsa
(6 bignums plus a comment), four for ecdsa-sha2-nistp256 (3 parameters plus
a comment), six for ssh-dss (5 bignums plus a comment) — and returns the
ed25519 keys found, in order.  (`covert/sshkey.py` lines 92-108; the claim
as frozen says five strings for ecdsa, which the counterexample refutes.) -/
theorem readSecretKeys_entries (entries : List SSHEnt) (r : Bytes)
    (h : ∀ e ∈ entries, goodEnt e) :
    readSecretKeys entries.length ((entries.map encEnt).flatten ++ r) =
      .ok (edKeys entries) := by
  induction entries generalizing r with
  | nil => simp [readSecretKeys, edKeys]
  | cons e t ih =>
    have hrest := fun x hx => h x (List.mem_cons_of_mem _ hx)
    have hfields : ∀ s ∈ fieldsOf e, s.length < 2 ^ 32 := by
      have hgood := h e (by simp)
      cases e <;> simp_all [fieldsOf, goodEnt]
    have h1 := readString_encStr (typeTag e)
      (((fieldsOf e).map encStr).flatten ++ ((t.map encEnt).flatten ++ r))
      (by cases e <;> simp [typeTag, ascii])
    have h2 := readStrings_enc (fieldsOf e) ((t.map encEnt).flatten ++ r) hfields
    have h3 := ih r hrest
    cases e <;>
      simp only [fieldsOf, typeTag, List.length_cons, List.length_nil] at h1 h2 <;>
        simp [ascii] at h1 h2 <;>
          simp [readSecretKeys, encEnt_eq, typeTag, fieldsOf, h1, h2, h3, edKeys,
            ascii]

/-- Witness for C8's amended theorem: an ecdsa entry followed by an ed25519
entry decodes to exactly the ed25519 key. -/
theorem readSecretKeys_entries_witness :
    (∀ e ∈ [SSHEnt.ecdsa [1] [2] [3] [4], SSHEnt.ed [5] [6] [7]], goodEnt e) ∧
    readSecretKeys 2
        (([SSHEnt.ecdsa [1] [2] [3] [4], SSHEnt.ed [5] [6] [7]].map
          encEnt).flatten ++ []) =
      .ok [([5], [6], [7])] := by
  constructor
  · intro e he
    fin_cases he <;> simp [goodEnt]
  · exact readSecretKeys_entries
      [SSHEnt.ecdsa [1] [2] [3] [4], SSHEnt.ed [5] [6] [7]] []
      (by intro e he; fin_cases he <;> simp [goodEnt])

/-- C8 counterexample: on the concrete container holding an
ecdsa-sha2-nistp256 entry followed by an ssh-ed25519 entry, the source
decoder returns the ed25519 key, while a decoder consuming "4 strings plus a
comment" (five in total) for the ecdsa entry — the claim as frozen — fails:
the two decoders disagree, so the claimed field count is wrong. -/
theorem readSecretKeys_ecdsa_count_counterexample :
    readSecretKeys 2
        (([SSHEnt.ecdsa [1] [2] [3] [4], SSHEnt.ed [5] [6] [7]].map
          encEnt).flatten) = .ok [([5], [6], [7])] ∧
    readSecretKeysClaim 2
        (([SSHEnt.ecdsa [1] [2] [3] [4], SSHEnt.ed [5] [6] [7]].map
          encEnt).flatten) = .error .valueError := by
  exact ⟨rfl, rfl⟩


/-! ## Armor codec, from `covert/util.py` (`armor_encode`, `armor_decode`)

Python strings are embedded as `List Char`.  `base64.b64encode` /
`b64decode(validate=True)` are standard-library base64 with the standard
alphabet; they are embedded directly (`b64e` producing the unpadded form the
source keeps after `rstrip('=')`, `b64d` accepting the re-padded form). -/

def b64alphabet : List Char :=
  ("ABCDEFGHIJKLMNOPQRSTUVWXYZabcdefghijklmnopqrstuvwxyz0123456789+/").toList

def b64char (n : Nat) : Char := b64alphabet.getD n 'A'

def b64idx (c : Char) : Option Nat := List.indexOf? c b64alphabet

def isB64Char (c : Char) : Bool := b64alphabet.contains c

/-- `b64encode(data).decode().rstrip('=')`: standard base64, padding
dropped. -/
def b64e : Bytes → List Char
  | [] => []
  | [a] => [b64char (a / 4), b64char (a % 4 * 16)]
  | [a, b] => [b64char (a / 4), b64char (a % 4 * 16 + b / 16), b64char (b % 16 * 4)]
  | a :: b :: c :: t =>
    b64char (a / 4) :: b64char (a % 4 * 16 + b / 16) ::
      b64char (b % 16 * 4 + c / 64) :: b64char (c % 64) :: b64e t

/-- One base64 quantum of `b64decode(..., validate=True)`: returns the
decoded bytes and whether the quantum was padded (and must thus be final). -/
def b64dGroup (c1 c2 c3 c4 : Char) : Except PyErr (Bytes × Bool) :=
  match b64idx c1, b64idx c2 with
  | some v1, some v2 =>
    if c3 = '=' then
      if c4 = '=' then .ok ([v1 * 4 + v2 / 16], true) else .error .valueError
    else
      match b64idx c3 with
      | some v3 =>
        if c4 = '=' then .ok ([v1 * 4 + v2 / 16, v2 % 16 * 16 + v3 / 4], true)
        else
          match b64idx c4 with
          | some v4 =>
            .ok ([v1 * 4 + v2 / 16, v2 % 16 * 16 + v3 / 4, v3 % 4 * 64 + v4],
                 false)
          | none => .error .valueError
      | none => .error .valueError
  | _, _ => .error .valueError

/-- `b64decode(s, validate=True)` on a padded string: length must be a
multiple of four, characters must be alphabet or final padding. -/
def b64d : List Char → Except PyErr Bytes
  | [] => .ok []
  | c1 :: c2 :: c3 :: c4 :: t =>
    match b64dGroup c1 c2 c3 c4 with
    | .error e => .error e
    | .ok (bs, final) =>
      if final then (if t = [] then .ok bs else .error .valueError)
      else
        match b64d t with
        | .error e => .error e
        | .ok rest => .ok (bs ++ rest)
  | _ => .error .valueError

/-- `'\n'.join([d[i:i+splitlen] for i in range(0, len(d), splitlen)])`, with
explicit fuel so the function is structural (the fuel is the list length;
`splitlen = 0` cannot occur, `random.choice(range(76, 121, 4))` is
positive). -/
def chunksOfF : Nat → Nat → List Char → List (List Char)
  | 0, _, _ => []
  | _ + 1, _, [] => []
  | f + 1, n, x :: xs => (x :: xs).take n :: chunksOfF f n ((x :: xs).drop n)

/-- `util.armor_encode(data)`; `splitlen` is the uniformly random choice from
`range(76, 121, 4)` made when the single-line form exceeds 4000 chars;
theorems quantify over it. -/
def armorEncode (splitlen : Nat) (data : Bytes) : List Char :=
  let d := b64e data
  if d.length > 4000 then
    List.intercalate ['\n'] (chunksOfF d.length splitlen d)
  else d

/-- The strip set of `data.strip('﻿\x60> \t\n')` (BOM, backtick,
blockquote, whitespace). -/
def stripOuter : List Char := [Char.ofNat 0xFEFF, Char.ofNat 0x60, '>', ' ', '\t', '\n']

/-- The strip set of `l.lstrip('\t >')`. -/
def lstripLine : List Char := ['\t', ' ', '>']

/-- ASCII whitespace stripped by `str.rstrip()` (the data is ASCII-checked
before line processing). -/
def rstripWS : List Char := [' ', '\t', '\n', '\r', Char.ofNat 0xb, Char.ofNat 0xc]

def lstripSet (S : List Char) (l : List Char) : List Char :=
  l.dropWhile fun c => S.contains c

def rstripSet (S : List Char) (l : List Char) : List Char :=
  (l.reverse.dropWhile fun c => S.contains c).reverse

/-- `data.replace('\r\n', '\n')` (left-to-right, non-overlapping). -/
def replaceCRLF : List Char → List Char
  | [] => []
  | '\r' :: '\n' :: t => '\n' :: replaceCRLF t
  | c :: t => c :: replaceCRLF t

/-- `util.armor_decode(data)` (lines 13-40). -/
def armorDecode (s : List Char) : Except PyErr Bytes :=
  -- Fix CRLF, remove any surrounding BOM, whitespace and code block markers
  let data := rstripSet stripOuter (lstripSet stripOuter (replaceCRLF s))
  if ¬(data.all fun c => c.toNat < 128) then
    .error .valueError   -- "data is not ASCII/Base64"
  else
    -- Strip indent and quote marks, trailing whitespace and empty lines
    let lines := ((data.splitOn '\n').map fun l =>
      rstripSet rstripWS (lstripSet lstripLine l)).filter (· ≠ [])
    -- Empty input means empty output
    if lines = [] then .ok []
    -- Verify charset on all lines
    else if ¬(lines.all fun l => l.all isB64Char) then
      .error .valueError   -- "unrecognized data on line i"
    else
      -- Verify line lengths
      let l0 := (lines.headD []).length
      if ¬(lines.dropLast.all fun li =>
            76 ≤ li.length ∧ li.length % 4 = 0 ∧ li.length = l0) then
        .error .valueError   -- "length of line i is invalid"
      else
        let d := lines.flatten
        let padding := (4 - d.length % 4) % 4
        if padding = 3 then
          .error .valueError   -- "invalid length for Base64 sequence"
        else b64d (d ++ List.replicate padding '=')

theorem b64idx_b64char : ∀ n < 64, b64idx (b64char n) = some n := by decide

theorem b64char_in_alphabet : ∀ n < 64, isB64Char (b64char n) = true := by decide

theorem b64char_ne_pad : ∀ n < 64, b64char n ≠ '=' := by decide

/-- Every character of the base64 alphabet is plain: not in any strip set,
not a newline, carriage return or padding, and ASCII. -/
theorem b64alphabet_plain : ∀ c ∈ b64alphabet,
    stripOuter.contains c = false ∧ lstripLine.contains c = false ∧
    rstripWS.contains c = false ∧ c ≠ '\n' ∧ c ≠ '\r' ∧ c ≠ '=' ∧
    c.toNat < 128 := by decide

theorem b64char_mem : ∀ n < 64, b64char n ∈ b64alphabet := by decide

theorem mem_b64e (data : Bytes) (h : ∀ b ∈ data, b < 256) :
    ∀ c ∈ b64e data, c ∈ b64alphabet := by
  induction data using b64e.induct with
  | case1 => simp [b64e]
  | case2 a =>
    have ha := h a (by simp)
    intro c hc
    simp only [b64e, List.mem_cons, List.not_mem_nil, or_false] at hc
    rcases hc with hc | hc <;> subst hc <;> exact b64char_mem _ (by omega)
  | case3 a b =>
    have ha := h a (by simp)
    have hb := h b (by simp)
    intro c hc
    simp only [b64e, List.mem_cons, List.not_mem_nil, or_false] at hc
    rcases hc with hc | hc | hc <;> subst hc <;> exact b64char_mem _ (by omega)
  | case4 a b c t ih =>
    have ha := h a (by simp)
    have hb := h b (by simp)
    have hcc := h c (by simp)
    intro x hx
    simp only [b64e, List.mem_cons] at hx
    rcases hx with hx | hx | hx | hx | hx
    · subst hx; exact b64char_mem _ (by omega)
    · subst hx; exact b64char_mem _ (by omega)
    · subst hx; exact b64char_mem _ (by omega)
    · subst hx; exact b64char_mem _ (by omega)
    · exact ih (fun y hy => h y (by simp [hy])) x hx

/-- The unpadded encoding never has length 1 mod 4 (so the re-added padding
is never 3). -/
theorem b64e_length_mod (data : Bytes) : (b64e data).length % 4 ≠ 1 := by
  induction data using b64e.induct with
  | case1 => simp [b64e]
  | case2 a => simp [b64e]
  | case3 a b => simp [b64e]
  | case4 a b c t ih =>
    simp only [b64e, List.length_cons]
    omega

/-- Core base64 round trip: decoding the re-padded unpadded encoding gives
back the bytes. -/
theorem b64_roundtrip (data : Bytes) (h : ∀ b ∈ data, b < 256) :
    b64d (b64e data ++
      List.replicate ((4 - (b64e data).length % 4) % 4) '=') = .ok data := by
  induction data using b64e.induct with
  | case1 => rfl
  | case2 a =>
    have ha := h a (by simp)
    have h1 := b64idx_b64char (a / 4) (by omega)
    have h2 := b64idx_b64char (a % 4 * 16) (by omega)
    have hrep : List.replicate ((4 - (b64e [a]).length % 4) % 4) '=' =
        ['=', '='] := rfl
    rw [hrep]
    simp only [b64e, List.cons_append, List.nil_append, b64d, b64dGroup,
      h1, h2, if_pos rfl]
    have e1 : a / 4 * 4 + a % 4 * 16 / 16 = a := by omega
    simp [e1]
    omega
  | case3 a b =>
    have ha := h a (by simp)
    have hb := h b (by simp)
    have h1 := b64idx_b64char (a / 4) (by omega)
    have h2 := b64idx_b64char (a % 4 * 16 + b / 16) (by omega)
    have h3 := b64idx_b64char (b % 16 * 4) (by omega)
    have hne := b64char_ne_pad (b % 16 * 4) (by omega)
    have hrep : List.replicate ((4 - (b64e [a, b]).length % 4) % 4) '=' =
        ['='] := rfl
    rw [hrep]
    simp only [b64e, List.cons_append, List.nil_append, b64d, b64dGroup,
      h1, h2, h3, if_neg hne, if_pos rfl]
    have e1 : a / 4 * 4 + (a % 4 * 16 + b / 16) / 16 = a := by omega
    have e2 : (a % 4 * 16 + b / 16) % 16 * 16 + b % 16 * 4 / 4 = b := by omega
    simp [e1, e2]
    omega
  | case4 a b c t ih =>
    have ha := h a (by simp)
    have hb := h b (by simp)
    have hcc := h c (by simp)
    have h1 := b64idx_b64char (a / 4) (by omega)
    have h2 := b64idx_b64char (a % 4 * 16 + b / 16) (by omega)
    have h3 := b64idx_b64char (b % 16 * 4 + c / 64) (by omega)
    have h4 := b64idx_b64char (c % 64) (by omega)
    have hne3 := b64char_ne_pad (b % 16 * 4 + c / 64) (by omega)
    have hne4 := b64char_ne_pad (c % 64) (by omega)
    have ih' := ih (fun y hy => h y (by simp [hy]))
    have hlen : (b64e (a :: b :: c :: t)).length % 4 = (b64e t).length % 4 := by
      simp only [b64e, List.length_cons]
      omega
    rw [hlen]
    simp only [b64e, List.cons_append, b64d, b64dGroup, h1, h2, h3, h4,
      if_neg hne3, if_neg hne4]
    simp only [List.append_eq, List.nil_append, Bool.false_eq_true, if_false,
      ite_false]
    rw [ih']
    have e1 : a / 4 * 4 + (a % 4 * 16 + b / 16) / 16 = a := by omega
    have e2 : (a % 4 * 16 + b / 16) % 16 * 16 + (b % 16 * 4 + c / 64) / 4 = b := by
      omega
    have e3 : (b % 16 * 4 + c / 64) % 4 * 64 + c % 64 = c := by omega
    simp [e1, e2, e3]

theorem replaceCRLF_noop (l : List Char) (h : ∀ c ∈ l, c ≠ '\r') :
    replaceCRLF l = l := by
  induction l with
  | nil => rfl
  | cons c t ih =>
    have hc := h c (by simp)
    have ht := ih fun x hx => h x (by simp [hx])
    rw [replaceCRLF.eq_def]
    split <;> simp_all

theorem lstripSet_noop (S : List Char) (l : List Char)
    (h : ∀ c ∈ l, S.contains c = false) : lstripSet S l = l := by
  cases l with
  | nil => rfl
  | cons c t =>
    rw [lstripSet, List.dropWhile_cons_of_neg]
    simpa using h c (by simp)

theorem rstripSet_noop (S : List Char) (l : List Char)
    (h : ∀ c ∈ l, S.contains c = false) : rstripSet S l = l := by
  rw [rstripSet]
  cases hr : l.reverse with
  | nil => simpa using congrArg List.reverse hr
  | cons c t =>
    rw [List.dropWhile_cons_of_neg, ← hr, List.reverse_reverse]
    have : c ∈ l := by
      have : c ∈ l.reverse := by rw [hr]; simp
      simpa using this
    simpa using h c this

theorem intercalate_singleton (d : List Char) :
    List.intercalate ['\n'] [d] = d := by
  simp [List.intercalate]

/-- For a newline-free input, `splitOn` returns the single line. -/
theorem splitOn_no_newline (d : List Char) (h : ∀ c ∈ d, c ≠ '\n') :
    d.splitOn '\n' = [d] := by
  have := List.splitOn_intercalate [d] '\n'
    (by simpa using fun hmem => h '\n' hmem rfl) (by simp)
  rwa [intercalate_singleton] at this

theorem chunksOfF_nil (fuel n : Nat) : chunksOfF fuel n [] = [] := by
  cases fuel <;> rfl

theorem chunksOfF_flatten (n : Nat) (hn : 0 < n) :
    ∀ (fuel : Nat) (l : List Char), l.length ≤ fuel →
      (chunksOfF fuel n l).flatten = l := by
  intro fuel
  induction fuel with
  | zero =>
    intro l hl
    have : l = [] := List.length_eq_zero.mp (by omega)
    simp [this, chunksOfF]
  | succ f ih =>
    intro l hl
    cases l with
    | nil => simp [chunksOfF]
    | cons x xs =>
      simp only [chunksOfF, List.flatten_cons]
      rw [ih _ (by simp at hl ⊢; omega)]
      exact List.take_append_drop n (x :: xs)

theorem chunksOfF_pieces (n : Nat) (hn : 0 < n) :
    ∀ (fuel : Nat) (l : List Char), l.length ≤ fuel →
      ∀ c ∈ chunksOfF fuel n l, c ≠ [] ∧ c.length ≤ n ∧ ∀ ch ∈ c, ch ∈ l := by
  intro fuel
  induction fuel with
  | zero =>
    intro l hl
    have : l = [] := List.length_eq_zero.mp (by omega)
    simp [this, chunksOfF]
  | succ f ih =>
    intro l hl c hc
    cases l with
    | nil => simp [chunksOfF] at hc
    | cons x xs =>
      simp only [chunksOfF, List.mem_cons] at hc
      rcases hc with hc | hc
      · subst hc
        refine ⟨?_, by simp, fun ch hch => List.mem_of_mem_take hch⟩
        cases n with
        | zero => omega
        | succ m => simp [List.take_succ_cons]
      · have := ih _ (by simp at hl ⊢; omega) c hc
        exact ⟨this.1, this.2.1, fun ch hch =>
          List.mem_of_mem_drop (this.2.2 ch hch)⟩

theorem chunksOfF_dropLast_length (n : Nat) (hn : 0 < n) :
    ∀ (fuel : Nat) (l : List Char), l.length ≤ fuel →
      ∀ c ∈ (chunksOfF fuel n l).dropLast, c.length = n := by
  intro fuel
  induction fuel with
  | zero =>
    intro l hl
    have : l = [] := List.length_eq_zero.mp (by omega)
    simp [this, chunksOfF]
  | succ f ih =>
    intro l hl c hc
    cases l with
    | nil => simp [chunksOfF] at hc
    | cons x xs =>
      simp only [chunksOfF] at hc
      cases hrest : chunksOfF f n ((x :: xs).drop n) with
      | nil => simp [hrest] at hc
      | cons r rs =>
        rw [hrest, List.dropLast_cons_of_ne_nil (by simp)] at hc
        rcases List.mem_cons.mp hc with hc | hc
        · subst hc
          have hne : (x :: xs).drop n ≠ [] := by
            intro he
            rw [he, chunksOfF_nil] at hrest
            cases hrest
          have hnlt : n < (x :: xs).length := by
            by_contra hcon
            exact hne (List.drop_eq_nil_of_le (by omega))
          simp only [List.length_cons] at hnlt
          simp [List.length_take]
          omega
        · rw [← hrest] at hc
          exact ih _ (by simp at hl ⊢; omega) c hc

theorem intercalate_cons₂ (a b : List Char) (t : List (List Char)) :
    List.intercalate ['\n'] (a :: b :: t) =
      a ++ '\n' :: List.intercalate ['\n'] (b :: t) := by
  simp [List.intercalate, List.intersperse_cons_cons]

theorem mem_intercalate_nl (chunks : List (List Char)) :
    ∀ ch ∈ List.intercalate ['\n'] chunks, ch = '\n' ∨ ∃ c ∈ chunks, ch ∈ c := by
  induction chunks with
  | nil => simp [List.intercalate]
  | cons a t ih =>
    cases t with
    | nil =>
      intro ch hch
      rw [intercalate_singleton] at hch
      exact Or.inr ⟨a, by simp, hch⟩
    | cons b t2 =>
      intro ch hch
      rw [intercalate_cons₂] at hch
      rcases List.mem_append.mp hch with hch | hch
      · exact Or.inr ⟨a, by simp, hch⟩
      · rcases List.mem_cons.mp hch with hch | hch
        · exact Or.inl hch
        · rcases ih ch hch with h | ⟨c, hc, hchc⟩
          · exact Or.inl h
          · exact Or.inr ⟨c, by simp [List.mem_cons.mp hc], hchc⟩

theorem intercalate_head_shape (ac : Char) (tl : List Char)
    (t : List (List Char)) :
    ∃ rest, List.intercalate ['\n'] ((ac :: tl) :: t) = ac :: rest := by
  cases t with
  | nil => exact ⟨tl, by rw [intercalate_singleton]⟩
  | cons b t2 =>
    exact ⟨tl ++ '\n' :: List.intercalate ['\n'] (b :: t2),
      by rw [intercalate_cons₂]; simp⟩

theorem intercalate_last_shape (chunks : List (List Char))
    (hne : chunks ≠ []) (hp : ∀ c ∈ chunks, c ≠ []) :
    ∃ ini lc, List.intercalate ['\n'] chunks = ini ++ [lc] ∧
      ∃ c ∈ chunks, lc ∈ c := by
  induction chunks with
  | nil => exact absurd rfl hne
  | cons a t ih =>
    cases t with
    | nil =>
      have ha := hp a (by simp)
      refine ⟨a.dropLast, a.getLast ha, ?_, a, by simp, List.getLast_mem ha⟩
      rw [intercalate_singleton, List.dropLast_append_getLast ha]
    | cons b t2 =>
      obtain ⟨ini, lc, heq, c, hc, hlc⟩ :=
        ih (by simp) (fun c hc => hp c (by simp [List.mem_cons.mp hc]))
      refine ⟨a ++ '\n' :: ini, lc, ?_, c, by simp [List.mem_cons.mp hc], hlc⟩
      rw [intercalate_cons₂, heq]
      simp

theorem lstripSet_noop_head (S : List Char) (c : Char) (t : List Char)
    (h : S.contains c = false) : lstripSet S (c :: t) = c :: t := by
  rw [lstripSet, List.dropWhile_cons_of_neg]
  simpa using h

theorem rstripSet_noop_last (S : List Char) (ini : List Char) (lc : Char)
    (h : S.contains lc = false) : rstripSet S (ini ++ [lc]) = ini ++ [lc] := by
  rw [rstripSet, List.reverse_append, List.reverse_singleton,
    List.singleton_append, List.dropWhile_cons_of_neg]
  · simp
  · simpa using h

/-- Evaluation of `armor_decode` on a clean wrapped payload: lines of base64
characters, all full lines of one length `n ∈ {76, …, 120}`, a nonempty tail
line.  The strip/filter pipeline is the identity and decoding reduces to
re-padded base64. -/
theorem armorDecode_of_chunks (chunks : List (List Char)) (n : Nat)
    (hne : chunks ≠ [])
    (hp : ∀ c ∈ chunks, c ≠ [] ∧ ∀ ch ∈ c, ch ∈ b64alphabet)
    (hdl : ∀ c ∈ chunks.dropLast, c.length = n)
    (h76 : 76 ≤ n) (h4 : n % 4 = 0)
    (hpad : chunks.flatten.length % 4 ≠ 1) :
    armorDecode (List.intercalate ['\n'] chunks) =
      b64d (chunks.flatten ++
        List.replicate ((4 - chunks.flatten.length % 4) % 4) '=') := by
  obtain ⟨c0, t, rfl⟩ : ∃ c0 t, chunks = c0 :: t := by
    cases chunks with
    | nil => exact absurd rfl hne
    | cons c0 t => exact ⟨c0, t, rfl⟩
  obtain ⟨ac, a', rfl⟩ : ∃ ac a', c0 = ac :: a' := by
    cases hc : c0 with
    | nil => exact absurd hc (hp c0 (by simp)).1
    | cons ac a' => exact ⟨ac, a', rfl⟩
  have hmem : ∀ ch ∈ List.intercalate ['\n'] ((ac :: a') :: t),
      ch = '\n' ∨ ch ∈ b64alphabet := by
    intro ch hch
    rcases mem_intercalate_nl _ ch hch with h | ⟨c, hc, hchc⟩
    · exact Or.inl h
    · exact Or.inr ((hp c hc).2 ch hchc)
  have hrepl : replaceCRLF (List.intercalate ['\n'] ((ac :: a') :: t)) =
      List.intercalate ['\n'] ((ac :: a') :: t) := by
    refine replaceCRLF_noop _ fun c hc => ?_
    rcases hmem c hc with h | h
    · subst h; decide
    · exact (b64alphabet_plain c h).2.2.2.2.1
  have hlst : lstripSet stripOuter (List.intercalate ['\n'] ((ac :: a') :: t)) =
      List.intercalate ['\n'] ((ac :: a') :: t) := by
    obtain ⟨rest, hrest⟩ := intercalate_head_shape ac a' t
    rw [hrest]
    exact lstripSet_noop_head _ _ _
      (b64alphabet_plain ac ((hp (ac :: a') (by simp)).2 ac (by simp))).1
  have hrst : rstripSet stripOuter (List.intercalate ['\n'] ((ac :: a') :: t)) =
      List.intercalate ['\n'] ((ac :: a') :: t) := by
    obtain ⟨ini, lc, heq, c, hc, hlc⟩ := intercalate_last_shape _
      (by simp) (fun c hc => (hp c hc).1)
    rw [heq]
    exact rstripSet_noop_last _ _ _
      (b64alphabet_plain lc ((hp c hc).2 lc hlc)).1
  have hascii : (List.intercalate ['\n'] ((ac :: a') :: t)).all
      (fun c => decide (c.toNat < 128)) = true := by
    rw [List.all_eq_true]
    intro c hc
    rcases hmem c hc with h | h
    · subst h; decide
    · simpa using (b64alphabet_plain c h).2.2.2.2.2.2
  have hnl : ∀ l ∈ (ac :: a') :: t, '\n' ∉ l := by
    intro l hl hmem'
    exact absurd rfl (b64alphabet_plain '\n' ((hp l hl).2 '\n' hmem')).2.2.2.1
  have hsplit : (List.intercalate ['\n'] ((ac :: a') :: t)).splitOn '\n' =
      (ac :: a') :: t :=
    List.splitOn_intercalate _ '\n' hnl (by simp)
  have hstripline : ∀ c ∈ (ac :: a') :: t,
      rstripSet rstripWS (lstripSet lstripLine c) = c := by
    intro c hc
    have hchars := (hp c hc).2
    rw [lstripSet_noop _ _ fun ch hch =>
      (b64alphabet_plain ch (hchars ch hch)).2.1]
    exact rstripSet_noop _ _ fun ch hch =>
      (b64alphabet_plain ch (hchars ch hch)).2.2.1
  have hmap : ((ac :: a') :: t).map
      (fun l => rstripSet rstripWS (lstripSet lstripLine l)) = (ac :: a') :: t := by
    rw [List.map_congr_left hstripline]
    simp
  have hfilter : (((ac :: a') :: t).filter (· ≠ [])) = (ac :: a') :: t := by
    rw [List.filter_eq_self]
    intro c hc
    simpa using (hp c hc).1
  have hlines : ∀ li ∈ ((ac :: a') :: t).dropLast,
      (76 ≤ li.length ∧ li.length % 4 = 0 ∧
        li.length = ((((ac :: a') :: t).headD []).length)) := by
    intro li hli
    have hlin := hdl li hli
    refine ⟨by omega, by omega, ?_⟩
    cases t with
    | nil => simp at hli
    | cons b t2 =>
      have hhead : (ac :: a') ∈ (((ac :: a') :: b :: t2).dropLast) := by
        rw [List.dropLast_cons_of_ne_nil (by simp)]
        simp
      have := hdl _ hhead
      simp only [List.headD_cons]
      omega
  have hcsl : (((ac :: a') :: t).all fun l => l.all isB64Char) = true := by
    rw [List.all_eq_true]
    intro c hc
    rw [List.all_eq_true]
    intro ch hch
    simpa [isB64Char] using (hp c hc).2 ch hch
  have hlenchk : (((ac :: a') :: t).dropLast.all fun li =>
      decide (76 ≤ li.length ∧ li.length % 4 = 0 ∧
        li.length = (((ac :: a') :: t).headD []).length)) = true := by
    rw [List.all_eq_true]
    intro li hli
    rw [decide_eq_true_eq]
    exact hlines li hli
  simp only [armorDecode]
  rw [hrepl, hlst, hrst, if_neg (not_not_intro hascii), hsplit, hmap, hfilter,
    if_neg (by simp : ¬((ac :: a') :: t = [])), if_neg (not_not_intro hcsl),
    if_neg (not_not_intro hlenchk),
    if_neg (by omega : ¬((4 - ((ac :: a') :: t).flatten.length % 4) % 4 = 3))]

/-- Evaluation of `armor_decode` on a clean single-line payload. -/
theorem armorDecode_single (d : List Char)
    (hmem : ∀ c ∈ d, c ∈ b64alphabet) (hpad : d.length % 4 ≠ 1) :
    armorDecode d = b64d (d ++ List.replicate ((4 - d.length % 4) % 4) '=') := by
  cases d with
  | nil => rfl
  | cons c0 t0 =>
    have := armorDecode_of_chunks [c0 :: t0] 76 (by simp)
      (by
        intro c hc
        simp only [List.mem_singleton] at hc
        subst hc
        exact ⟨by simp, hmem⟩)
      (by simp) (by norm_num) (by norm_num) (by simpa using hpad)
    rw [intercalate_singleton] at this
    simpa using this

/-- C7: for every byte string x, `armor_decode(armor_encode(x)) == x`, and
every line `armor_encode` emits except possibly the last is at least 76
characters long.  `splitlen` is the random wrap length drawn from
`range(76, 121, 4)`.  (`covert/util.py`, `armor_encode` lines 43-50 and
`armor_decode` lines 13-40.) -/
theorem armor_roundtrip (data : Bytes) (splitlen : Nat)
    (hbytes : ∀ b ∈ data, b < 256)
    (hsl : splitlen ∈ [76, 80, 84, 88, 92, 96, 100, 104, 108, 112, 116, 120]) :
    armorDecode (armorEncode splitlen data) = .ok data ∧
    ∀ line ∈ ((armorEncode splitlen data).splitOn '\n').dropLast,
      76 ≤ line.length := by
  have hmem := mem_b64e data hbytes
  have hpadne := b64e_length_mod data
  have hslpos : 0 < splitlen := by fin_cases hsl <;> norm_num
  have hsl76 : 76 ≤ splitlen := by fin_cases hsl <;> norm_num
  have hsl4 : splitlen % 4 = 0 := by fin_cases hsl <;> norm_num
  by_cases hlen : (b64e data).length > 4000
  · obtain ⟨x, xs, hxe⟩ : ∃ x xs, b64e data = x :: xs := by
      cases he : b64e data with
      | nil => rw [he] at hlen; simp at hlen
      | cons x xs => exact ⟨x, xs, rfl⟩
    have hflat : (chunksOfF (b64e data).length splitlen (b64e data)).flatten =
        b64e data := chunksOfF_flatten splitlen hslpos _ _ le_rfl
    have hpieces := chunksOfF_pieces splitlen hslpos (b64e data).length
      (b64e data) le_rfl
    have hdll := chunksOfF_dropLast_length splitlen hslpos (b64e data).length
      (b64e data) le_rfl
    have hne : chunksOfF (b64e data).length splitlen (b64e data) ≠ [] := by
      rw [hxe]
      simp only [List.length_cons, chunksOfF]
      simp
    have hp : ∀ c ∈ chunksOfF (b64e data).length splitlen (b64e data),
        c ≠ [] ∧ ∀ ch ∈ c, ch ∈ b64alphabet := by
      intro c hc
      obtain ⟨h1, _h2, h3⟩ := hpieces c hc
      exact ⟨h1, fun ch hch => hmem ch (h3 ch hch)⟩
    have hsplitlines : (List.intercalate ['\n']
          (chunksOfF (b64e data).length splitlen (b64e data))).splitOn '\n' =
        chunksOfF (b64e data).length splitlen (b64e data) := by
      refine List.splitOn_intercalate _ '\n' ?_ hne
      intro l hl hmem'
      have := (hp l hl).2 '\n' hmem'
      exact absurd rfl (b64alphabet_plain '\n' this).2.2.2.1
    have hdec := armorDecode_of_chunks
      (chunksOfF (b64e data).length splitlen (b64e data)) splitlen hne hp hdll
      hsl76 hsl4 (by rw [hflat]; exact hpadne)
    constructor
    · rw [armorEncode]
      simp only [if_pos hlen]
      rw [hdec, hflat]
      exact b64_roundtrip data hbytes
    · intro line hline
      rw [armorEncode] at hline
      simp only [if_pos hlen] at hline
      rw [hsplitlines] at hline
      rw [hdll line hline]
      exact hsl76
  · constructor
    · rw [armorEncode]
      simp only [if_neg hlen]
      rw [armorDecode_single (b64e data) hmem hpadne]
      exact b64_roundtrip data hbytes
    · intro line hline
      rw [armorEncode] at hline
      simp only [if_neg hlen] at hline
      rw [splitOn_no_newline (b64e data)
        (fun c hc => (b64alphabet_plain c (hmem c hc)).2.2.2.1)] at hline
      simp at hline

/-- Witness for C7: a concrete armored round trip. -/
theorem armor_roundtrip_witness :
    (∀ b ∈ ([1, 2, 3] : Bytes), b < 256) ∧
    76 ∈ [76, 80, 84, 88, 92, 96, 100, 104, 108, 112, 116, 120] ∧
    armorDecode (armorEncode 76 [1, 2, 3]) = .ok [1, 2, 3] :=
  ⟨by decide, by decide,
    (armor_roundtrip [1, 2, 3] 76 (by decide) (by decide)).1⟩

/-! ## ID store, from `covert/idstore.py`

Records of the store map `I` as `remove_expired` (lines 166-183) inspects
them: an optional peer expiry `e`, an optional ratchet state `r` carrying its
own expiry and a list of skipped message keys, each with an expiry.  The key
material fields (`I`, `i`) are carried along untouched.  Python stores
expiries as `time.time()` floats; only their ordering is used, embedded here
over `Int`. -/

structure MsgKey where
  e : Int
  payload : Bytes := []
  deriving DecidableEq, Repr

structure RatchetSt where
  e : Int
  msg : List MsgKey
  payload : Bytes := []
  deriving DecidableEq, Repr

structure IdRecord where
  e : Option Int := none
  r : Option RatchetSt := none
  skI : Option Bytes := none
  pki : Option Bytes := none
  deriving DecidableEq, Repr

/-- The ratchet part of one `remove_expired` iteration: drop the whole
ratchet when its `e` has passed (and `continue`), otherwise keep only the
message keys with `e > t`. -/
def cleanRecord (t : Int) (v : IdRecord) : IdRecord :=
  match v.r with
  | none => v
  | some r =>
    if r.e < t then { v with r := none }
    else { v with r := some { r with msg := r.msg.filter (fun m => m.e > t) } }

/-- `idstore.remove_expired(ids)`: delete every record whose `e` has passed,
then prune ratchets and their skipped message keys. -/
def removeExpired (t : Int) (ids : List (String × IdRecord)) :
    List (String × IdRecord) :=
  (ids.filter fun kv =>
      match kv.2.e with
      | some e => decide (¬e < t)
      | none => true).map
    fun kv => (kv.1, cleanRecord t kv.2)

/-- `idstore.update(pwhash, allow_create, new_pwhash)` on an existing store
(lines 43-66): substitute `pwhash` for a missing `new_pwhash`, then decrypt
the store file in RAM with `decrypt_file([pwhash], m, a)`.  That decryption
constructs `Header(ciphertext[:1024])` (`blockstream.py:62`), whose
`Key(pkhash=…)` call raises TypeError (`cryptoheader.py:51`), so the
generator never reaches its `yield`.  Were decryption possible, the
post-yield code would still fail before re-encrypting: after
`remove_expired`, the `a.reset()` of line 58 is an attribute lookup on an
`Archive` that defines no `reset` method (AttributeError), and the `BytesIO`
of line 59 sits in a comprehension over `a.flist`, which is empty for an ID
store, so that name is never evaluated. -/
def idsUpdate (E : ExtCrypto) (unhash : Bytes → Bytes) (pwhash : Bytes)
    (newPwhash : Option Bytes) (m : Bytes) : Except PyErr Bytes :=
  let _newPw := match newPwhash with | some np => np | none => pwhash
  match decryptFile E unhash [AuthCand.pass pwhash] m with
  | .error e => .error e
  | .ok _ =>
    -- remove_expired(a.index["I"]); then a.reset(): no such attribute
    .error .attributeError

/-- C9 (code bug): the claim says that closing the `update` generator right
after its yield re-encrypts the store under `new_pwhash` (or `pwhash`) after
evicting expired entries.  On this source `update()` never reaches the
yield: decrypting the existing store constructs a `Header`, whose
`Key(pkhash=…)` call (`cryptoheader.py:51`) raises TypeError —
`Key.__init__` accepts no such keyword — for every store file of at least
32 bytes (any encrypted store is).  No eviction and no re-encryption can
ever happen. -/
theorem update_existing_store_type_error (E : ExtCrypto)
    (unhash : Bytes → Bytes) (pwhash : Bytes) (newPwhash : Option Bytes)
    (m : Bytes) (hm : 32 ≤ m.length) :
    idsUpdate E unhash pwhash newPwhash m = .error .typeError := by
  rw [idsUpdate, decryptFile_type_error E unhash [AuthCand.pass pwhash] m hm]

/-- Witness for C9: a 32-byte store file. -/
theorem update_existing_store_type_error_witness :
    32 ≤ (zeros 32).length ∧
    idsUpdate EW id [1] none (zeros 32) = .error .typeError :=
  ⟨by decide,
    update_existing_store_type_error EW id [1] none (zeros 32) (by decide)⟩

/-- Supporting fact (the eviction the claim describes, performed just before
the failing line): after `remove_expired`, no surviving record has a passed
`e`, no surviving ratchet has a passed `e`, and every surviving skipped
message key has `e > now`. -/
theorem removeExpired_evicts (now : Int) (ids : List (String × IdRecord)) :
    ∀ kv ∈ removeExpired now ids,
      (∀ e, kv.2.e = some e → ¬e < now) ∧
      (∀ r, kv.2.r = some r → ¬r.e < now ∧ ∀ m ∈ r.msg, m.e > now) := by
  intro kv hkv
  simp only [removeExpired, List.mem_map, List.mem_filter] at hkv
  obtain ⟨⟨k, v⟩, ⟨_hmem, hfilt⟩, heq⟩ := hkv
  subst heq
  have hsame : (cleanRecord now v).e = v.e := by
    cases hr : v.r with
    | none => simp [cleanRecord, hr]
    | some r => by_cases hlt : r.e < now <;> simp [cleanRecord, hr, hlt]
  constructor
  · intro e he
    rw [hsame] at he
    rw [he] at hfilt
    simpa using hfilt
  · intro r hr
    cases hvr : v.r with
    | none => simp [cleanRecord, hvr] at hr
    | some r0 =>
      by_cases hlt : r0.e < now
      · simp [cleanRecord, hvr, hlt] at hr
      · simp [cleanRecord, hvr, hlt] at hr
        subst hr
        refine ⟨hlt, ?_⟩
        intro m hm
        simp only [List.mem_filter] at hm
        simpa using hm.2


/-- C1 (code bug): the claimed encrypt-then-decrypt roundtrip covers no
execution of this source.  For every auth bundle with at least one
passphrase or recipient, `encrypt_file` raises AttributeError —
`encrypt_header` reads `eph.pkhash` (`cryptoheader.py:27`) on the
`pubkey.Key()` it just created (line 26), and `Key.__init__`
(`pubkey.py:22-49`) never assigns that attribute — so no ciphertext is ever
produced; and on every input of at least 32 bytes `decrypt_file` raises
TypeError, because `Header.__init__` calls `Key(pkhash=…)`
(`cryptoheader.py:51`), a keyword `Key.__init__` does not accept.  Neither
side can complete, so no roundtrip and no matching filehash exist. -/
theorem encryptFile_decryptFile_never_roundtrip (E : ExtCrypto)
    (so : SodiumOps) (shuffle : List Bytes → List Bytes)
    (unhash : Bytes → Bytes) (eph : KeyRec) (auth : AuthE)
    (chunks : List Bytes) (cands : List AuthCand) (ct : Bytes)
    (h1 : so.signKeypair.1 ≠ []) (h2 : so.signKeypair.2 ≠ [])
    (h3 : ∀ b, so.skToCurve b ≠ [])
    (hk : keyInit so [] [] none none none none = .ok eph)
    (hmethod : auth.pwhashes ≠ [] ∨ auth.recipients ≠ [])
    (hwo : auth.wideopen = false)
    (hct : 32 ≤ ct.length) :
    encryptFile E shuffle eph auth chunks = .error .attributeError ∧
    decryptFile E unhash cands ct = .error .typeError := by
  have hph : eph.pkhash = none :=
    keyInit_noparams_pkhash_none so eph h1 h2 h3 hk
  constructor
  · have hh : encryptHeader E shuffle eph auth = .error .attributeError := by
      unfold encryptHeader
      rw [if_neg (not_not_intro (Or.inr hmethod)), if_neg (by simp [hwo])]
      simp only [hph]
    rw [encryptFile, hh]
  · exact decryptFile_type_error E unhash cands ct hct

/-- Witness for C1: a concrete single-passphrase bundle, one plaintext
chunk, and a 32-byte decryption input. -/
theorem encryptFile_decryptFile_never_roundtrip_witness :
    soW.signKeypair.1 ≠ [] ∧ soW.signKeypair.2 ≠ [] ∧
    (∀ b, soW.skToCurve b ≠ []) ∧
    keyInit soW [] [] none none none none = .ok keyW ∧
    (([[7, 8]] : List Bytes) ≠ [] ∨ ([] : List KeyRec) ≠ []) ∧
    32 ≤ (zeros 32).length ∧
    (encryptFile EW id keyW ⟨false, [[7, 8]], [], []⟩ [[5]] =
        .error .attributeError ∧
      decryptFile EW id [] (zeros 32) = .error .typeError) :=
  ⟨by decide, by decide, fun _ => List.cons_ne_nil 3 [], rfl,
    Or.inl (by decide), by decide,
    encryptFile_decryptFile_never_roundtrip EW soW id id keyW
      ⟨false, [[7, 8]], [], []⟩ [[5]] [] (zeros 32)
      (by decide) (by decide) (fun _ => List.cons_ne_nil 3 []) rfl
      (Or.inl (by decide)) rfl (by decide)⟩

end Covert
